import Mathlib

/-!
# CHIP-8 interpreter (Thigamore/Chip8): shallow embedding

The definitions below follow `Cycle.go` (package `main`) and
`Display/DisplayAndTimer.go` (package `Display`) statement by statement.

* Go `byte`/`uint8` values are `Nat` with an explicit `% 256` at every operation
  that can wrap, `uint16` values are `Nat` with `% 65536`, `uint32` with `% 2^32`.
* Go `int` values (the stack pointer, pixel offsets) are `Int`/`Nat` without a
  bound: the 64-bit range is never approached by the values that occur.
* A slice is a `List Nat`; an index outside `0 ≤ i < len` is the Go run-time
  panic "index out of range", modelled as `Except.error Fault.indexOutOfRange`.
* The SDL collaborators (texture memory, tick counter, event queue, random
  source) are explicit inputs: the texture bytes live in `Display.texture`,
  everything else in `Env`.
* Debug logging and `fmt.Printf` calls have no effect on the machine state and
  are left out.
-/

namespace Chip8VM

/-- Ways in which the Go code stops instead of returning normally. -/
inductive Fault where
  /-- run-time panic: slice index out of range -/
  | indexOutOfRange
  /-- `panic(0)` of `newInstance` when the ROM is longer than 3584 bytes -/
  | romTooLarge
  /-- opcode `Fx0A`: the polling loop `for running` never clears `running`, so
  the call either loops forever or panics on a key name that is not a number -/
  | keyWait
  deriving DecidableEq, Repr

deriving instance DecidableEq for Except

/-! ## Machine arithmetic -/

/-- Truncation to `byte`. -/
def u8 (n : Nat) : Nat := n % 256

/-- Truncation to `uint16`. -/
def u16 (n : Nat) : Nat := n % 65536

/-- Truncation to `uint32`. -/
def u32 (n : Nat) : Nat := n % 4294967296

/-- Go `a - b` on `byte` operands. -/
def sub8 (a b : Nat) : Nat := (a % 256 + 256 - b % 256) % 256

/-- Go `^a` on a `byte` operand. -/
def not8 (a : Nat) : Nat := 255 - a % 256

/-- Go `xs[i]`: the element, or the index-out-of-range panic. -/
def readAt (xs : List Nat) (i : Nat) : Except Fault Nat :=
  match xs[i]? with
  | some v => .ok v
  | none => .error .indexOutOfRange

/-- Go `xs[i] = v`: the updated slice, or the index-out-of-range panic. -/
def writeAt (xs : List Nat) (i : Nat) (v : Nat) : Except Fault (List Nat) :=
  if i < xs.length then .ok (xs.set i v) else .error .indexOutOfRange

/-! ## Operand extraction, as written at each use in `DecodeExecute` -/

/-- The expression `instance.IR << 4 >> 12`. -/
def opX (ir : Nat) : Nat := u16 (ir <<< 4) >>> 12

/-- The expression `instance.IR << 8 >> 12`. -/
def opY (ir : Nat) : Nat := u16 (ir <<< 8) >>> 12

/-- The expression `instance.IR << 12 >> 12`. -/
def opN (ir : Nat) : Nat := u16 (ir <<< 12) >>> 12

/-- The expression `instance.IR << 8 >> 8`. -/
def opNN (ir : Nat) : Nat := u16 (ir <<< 8) >>> 8

/-- The expression `instance.IR << 4 >> 4`. -/
def opNNN (ir : Nat) : Nat := u16 (ir <<< 4) >>> 4

/-! ## Stack (`Cycle.go`, lines 28-32 and 96-109) -/

/-- The Go struct `Stack`. -/
structure Stack where
  stack : List Nat
  pointer : Int
  deriving DecidableEq, Repr

/-- `func (Stack *Stack) push(toPush uint16)`. -/
def Stack.push (s : Stack) (toPush : Nat) : Except Fault Stack :=
  if 0 ≤ s.pointer + 1 then do
    let st ← writeAt s.stack (s.pointer + 1).toNat toPush
    pure { stack := st, pointer := s.pointer + 1 }
  else .error .indexOutOfRange

/-- `func (Stack *Stack) pop() uint16`: the popped value and the stack after. -/
def Stack.pop (s : Stack) : Except Fault (Nat × Stack) :=
  if 0 ≤ s.pointer then do
    let popped ← readAt s.stack s.pointer.toNat
    pure (popped, { s with pointer := s.pointer - 1 })
  else .error .indexOutOfRange

/-- Push the addresses of `vs` in order (a sequence of `push` calls). -/
def Stack.pushAll (s : Stack) (vs : List Nat) : Except Fault Stack :=
  vs.foldlM Stack.push s

/-- Pop `k` times, collecting the returned addresses in the order popped. -/
def Stack.popN (s : Stack) : Nat → Except Fault (List Nat × Stack)
  | 0 => pure ([], s)
  | k + 1 => do
    let (v, s1) ← s.pop
    let (rest, s2) ← Stack.popN s1 k
    pure (v :: rest, s2)

/-! ## Timer (`Display/DisplayAndTimer.go`, lines 155-184) -/

/-- The Go struct `Timer`. -/
structure Timer where
  ticksStart : Nat
  value : Nat
  deriving DecidableEq, Repr

/-- `func InitTimer() Timer`. -/
def InitTimer : Timer := { ticksStart := 0, value := 0 }

/-- `func (timer *Timer) Start(startValue byte)`; `now` is `sdl.GetTicks()`. -/
def Timer.Start (_t : Timer) (now : Nat) (startValue : Nat) : Timer :=
  { ticksStart := now, value := startValue }

/-- `func (timer *Timer) Run()`; `now` is `sdl.GetTicks()`. -/
def Timer.Run (t : Timer) (now : Nat) : Timer :=
  if t.value ≠ 0 then
    { t with value := sub8 t.value (u8 (u32 (now + 4294967296 - t.ticksStart) / 17)) }
  else t

/-- `func (timer *Timer) GetValue() byte`: the value read and the timer after. -/
def Timer.GetValue (t : Timer) (now : Nat) : Nat × Timer :=
  let t1 := t.Run now
  (t1.value, t1)

/-- `func (timer *Timer) SetValue(value byte)`. -/
def Timer.SetValue (t : Timer) (value : Nat) : Timer :=
  { t with value := value }

/-! ## Display (`Display/DisplayAndTimer.go`, lines 9-153) -/

/-- The Go struct `Display`. The SDL handles `window`, `Texture`, `Renderer`
are replaced by the state the code observes through them: `texture` is the
pixel memory of the streaming texture and `texPitch` the pitch that
`Texture.Lock` reports for it. -/
structure Display where
  texture : List Nat
  texPitch : Nat
  Pixels : List Nat
  bits : List Nat
  bitPosY : Nat
  bitPosX : Nat
  pitch : Nat
  H : Nat
  W : Nat
  Dh : Nat
  Dw : Nat
  deriving DecidableEq, Repr

/-- `func InitDisplay() *Display`, for a texture with the given memory. -/
def InitDisplay (texture : List Nat) (texPitch : Nat) : Display :=
  { texture := texture, texPitch := texPitch, Pixels := [], bits := [],
    bitPosY := 0, bitPosX := 0, pitch := texPitch, H := 32, W := 64,
    Dh := 320, Dw := 640 }

/-- `func (display *Display) Lock()`: `Pixels` becomes the texture memory. -/
def Display.Lock (d : Display) : Display :=
  { d with Pixels := d.texture, pitch := d.texPitch }

/-- `func (display *Display) UnLock()`: what was written through `Pixels` is
the texture's content from now on. -/
def Display.UnLock (d : Display) : Display :=
  { d with texture := d.Pixels, Pixels := [], bits := [], pitch := 0 }

/-- The byte offset read by `GetPixels` for row `i`, pixel `j`:
`(int(Vy-1)*(display.pitch+1))+(int(i)*(display.pitch))+int(Vx)+(int(j)*4)`. -/
def readPos (pitch Vy Vx i j : Nat) : Nat :=
  sub8 Vy 1 * (pitch + 1) + i * pitch + Vx + j * 4

/-- The byte offset written by `BitToByte` for row `i`, pixel `j`:
`(int(display.bitPosY-1) * display.pitch) + (i * display.pitch) +
(int(display.bitPosX) * 4) + (j * 4)`. -/
def writePos (pitch bitPosY bitPosX i j : Nat) : Nat :=
  sub8 bitPosY 1 * pitch + i * pitch + bitPosX * 4 + j * 4

/-- One iteration of the inner loop of `GetPixels` (the `switch` on the pixel
byte). -/
def getPixelsStep (Pixels : List Nat) (pitch Vy Vx i : Nat) (toBits j : Nat) :
    Except Fault Nat := do
  let p ← readAt Pixels (readPos pitch Vy Vx i j)
  if p = 0xFF then
    pure (u8 (toBits <<< 1))
  else if p = 0x0 then
    pure (u8 (toBits <<< 1) ^^^ u8 (1 <<< j))
  else
    pure toBits

/-- The inner loop of `GetPixels`, `for j := uint8(0); j < 8; j++`, started
with `toBits = 0`. -/
def getPixelsRow (Pixels : List Nat) (pitch Vy Vx i : Nat) : Except Fault Nat :=
  (List.range 8).foldlM (getPixelsStep Pixels pitch Vy Vx i) 0

/-- `func (display *Display) GetPixels(Vy byte, Vx byte, n uint8) *[]byte`.
The returned pointer is `&display.bits`, so the result is the display whose
`bits` field the caller goes on to modify. -/
def Display.GetPixels (d : Display) (Vy Vx n : Nat) : Except Fault Display := do
  let bits ← (List.range n).foldlM
    (fun bits i => do
      let toBits ← getPixelsRow d.Pixels d.pitch Vy Vx i
      writeAt bits i toBits)
    (List.replicate n 0)
  pure { d with bits := bits, bitPosX := Vx, bitPosY := Vy }

/-- The byte `((^(bits[i] << j)) >> 7) * 0xFF` stored by `BitToByte`. -/
def pixelByte (b j : Nat) : Nat := u8 ((not8 (u8 (b <<< j)) >>> 7) * 0xFF)

/-- One iteration of the inner loop of `BitToByte`: four byte stores. -/
def bitToByteStep (bits : List Nat) (pitch bitPosY bitPosX i : Nat)
    (Pixels : List Nat) (j : Nat) : Except Fault (List Nat) := do
  let pos := writePos pitch bitPosY bitPosX i j
  let b ← readAt bits i
  let px ← writeAt Pixels pos (pixelByte b j)
  let px ← writeAt px (pos + 1) (pixelByte b j)
  let px ← writeAt px (pos + 2) (pixelByte b j)
  writeAt px (pos + 3) (pixelByte b j)

/-- The body of the outer loop of `BitToByte` for row `i`. -/
def bitToByteRow (bits : List Nat) (pitch bitPosY bitPosX : Nat)
    (Pixels : List Nat) (i : Nat) : Except Fault (List Nat) :=
  (List.range 8).foldlM (bitToByteStep bits pitch bitPosY bitPosX i) Pixels

/-- `func (display *Display) BitToByte()`. -/
def Display.BitToByte (d : Display) : Except Fault Display := do
  let px ← (List.range d.bits.length).foldlM
    (bitToByteRow d.bits d.pitch d.bitPosY d.bitPosX) d.Pixels
  pure { d with Pixels := px }

/-- One iteration of the loop of `Clear`: the four stores at `i .. i+3`, where
`i = 4 * k`. -/
def clearStep (Pixels : List Nat) (k : Nat) : Except Fault (List Nat) := do
  let px ← writeAt Pixels (4 * k) 0xFF
  let px ← writeAt px (4 * k + 1) 0xFF
  let px ← writeAt px (4 * k + 2) 0xFF
  writeAt px (4 * k + 3) 0xFF

/-- `func (display *Display) Clear()`. The loop
`for i := 0; i < pitch*H; i += 4` runs `⌈pitch*H / 4⌉` times. -/
def Display.Clear (d : Display) : Except Fault Display := do
  let d1 := d.Lock
  let px ← (List.range ((d1.pitch * d1.H + 3) / 4)).foldlM clearStep d1.Pixels
  let d2 := Display.UnLock { d1 with Pixels := px }
  pure d2.Lock.UnLock

/-- `func (display *Display) GetPitch() int`. -/
def Display.GetPitch (d : Display) : Nat := d.pitch

/-! ## The machine (`Cycle.go`) -/

/-- The Go struct `Chip8`. -/
structure Chip8 where
  stack : Stack
  memory : List Nat
  registers : List Nat
  I : Nat
  PC : Nat
  IR : Nat
  display : Display
  delayTimer : Timer
  soundTimer : Timer
  deriving DecidableEq, Repr

/-- What one call of `DecodeExecute` obtains from its collaborators.
`ticks` is `sdl.GetTicks()`, `rand` is `rand.Intn(255)`, `keySym` is
`t.Keysym.Sym` when `sdl.PollEvent()` returns a keyboard event (and `none` for
any other event or no event), `keyFromName k` is
`sdl.GetKeyFromName(strconv.FormatUint(uint64(k), 10))`. -/
structure Env where
  ticks : Nat
  rand : Nat
  keySym : Option Nat
  keyFromName : Nat → Nat

/-- The font table of `newInstance`. -/
def fonts : List Nat :=
  [0xF0, 0x90, 0x90, 0x90, 0xF0,
   0x20, 0x60, 0x20, 0x20, 0x70,
   0xF0, 0x10, 0xF0, 0x80, 0xF0,
   0xF0, 0x10, 0xF0, 0x10, 0xF0,
   0x90, 0x90, 0xF0, 0x10, 0x10,
   0xF0, 0x80, 0xF0, 0x10, 0xF0,
   0xF0, 0x80, 0xF0, 0x90, 0xF0,
   0xF0, 0x10, 0x20, 0x40, 0x40,
   0xF0, 0x90, 0xF0, 0x90, 0xF0,
   0xF0, 0x90, 0xF0, 0x10, 0xF0,
   0xF0, 0x90, 0xF0, 0x90, 0x90,
   0xE0, 0x90, 0xE0, 0x90, 0xE0,
   0xF0, 0x80, 0x80, 0x80, 0xF0,
   0xE0, 0x90, 0x90, 0x90, 0xE0,
   0xF0, 0x80, 0xF0, 0x80, 0xF0,
   0xF0, 0x80, 0xF0, 0x80, 0x80]

/-- The loop `for pos, i := range src { mem[pos+off] = i }`. -/
def copyInto (mem : List Nat) (off : Nat) (src : List Nat) : Except Fault (List Nat) :=
  src.enum.foldlM (fun m (p : Nat × Nat) => writeAt m (p.1 + off) p.2) mem

/-- `func newInstance`, from the bytes `ROM` that were read from the ROM file
and the texture that `Display.InitDisplay` created. -/
def newInstance (ROM : List Nat) (texture : List Nat) (texPitch : Nat) :
    Except Fault Chip8 :=
  if ROM.length > 3584 then .error .romTooLarge
  else do
    let mem ← copyInto (List.replicate 4096 0) 0 fonts
    let mem ← copyInto mem 0x200 ROM
    pure { stack := { stack := List.replicate 30 0, pointer := -1 },
           memory := mem,
           registers := List.replicate 16 0,
           I := 0, PC := 0x200, IR := 0,
           display := InitDisplay texture texPitch,
           delayTimer := InitTimer,
           soundTimer := InitTimer }

/-- The byte Go computes for `((^b) & m) | (b & (^m))` on `byte` operands: the
row update of `Draw`. -/
def flipBits (b m : Nat) : Nat := ((not8 b) &&& m) ||| (b &&& (not8 m))

/-- One iteration of the loop of `Draw` over the sprite rows: the collision
accumulation into `registers[0xF]` and the in-place update of `bits[i]`. -/
def drawStep (memory : List Nat) (I : Nat) (st : List Nat × List Nat) (i : Nat) :
    Except Fault (List Nat × List Nat) := do
  let (registers, bits) := st
  let b ← readAt bits i
  let m ← readAt memory (u16 (I + i))
  let vf ← readAt registers 0xF
  let registers ← writeAt registers 0xF ((b &&& m) ||| vf)
  let b ← readAt bits i
  let bits ← writeAt bits i (flipBits b m)
  pure (registers, bits)

/-- `func (instance *Chip8) Draw(Vx byte, Vy byte, n uint8, debugLog *Log)`;
`Vx` and `Vy` are register indices. -/
def Chip8.Draw (c : Chip8) (Vx Vy n : Nat) : Except Fault Chip8 := do
  let registers ← writeAt c.registers 0xF 0
  let display := c.display.Lock
  let stack ← c.stack.push c.PC
  let vy ← readAt registers Vy
  let vx ← readAt registers Vx
  let display ← display.GetPixels vy vx n
  let (registers, bits) ← (List.range n).foldlM (drawStep c.memory c.I)
    (registers, display.bits)
  let display ← Display.BitToByte { display with bits := bits }
  let display := display.UnLock
  let (pc, stack) ← stack.pop
  pure { c with registers := registers, display := display, stack := stack, PC := pc }

/-- `func (instance *Chip8) Fetch()`. -/
def Chip8.Fetch (c : Chip8) : Except Fault Chip8 := do
  let hi ← readAt c.memory c.PC
  let lo ← readAt c.memory (u16 (c.PC + 1))
  pure { c with IR := u16 (hi <<< 8) ^^^ lo, PC := u16 (c.PC + 2) }

/-- Go `instance.registers[Vx] = v`, lifted to the machine state. -/
def Chip8.setReg (c : Chip8) (x v : Nat) : Except Fault Chip8 := do
  let registers ← writeAt c.registers x v
  pure { c with registers := registers }

/-- The `case 0x8` arm of `DecodeExecute`: the inner switch on
`instance.IR << 12 >> 12`. -/
def Chip8.execute8 (c : Chip8) : Except Fault Chip8 :=
  let Vx := opX c.IR
  let Vy := opY c.IR
  let sel := opN c.IR
  if sel = 0x0 then do
    let b ← readAt c.registers Vy
    c.setReg Vx b
  else if sel = 0x1 then do
    let a ← readAt c.registers Vx
    let b ← readAt c.registers Vy
    c.setReg Vx (a ||| b)
  else if sel = 0x2 then do
    let a ← readAt c.registers Vx
    let b ← readAt c.registers Vy
    c.setReg Vx (a &&& b)
  else if sel = 0x3 then do
    let a ← readAt c.registers Vx
    let b ← readAt c.registers Vy
    c.setReg Vx (a ^^^ b)
  else if sel = 0x4 then do
    let a ← readAt c.registers Vx
    let b ← readAt c.registers Vy
    let sum := u8 (a + b)
    let c1 ← if (sum : Int) ≠ (a : Int) + (b : Int) then c.setReg 15 1 else pure c
    c1.setReg Vx sum
  else if sel = 0x5 then do
    let a ← readAt c.registers Vx
    let b ← readAt c.registers Vy
    let sum := sub8 a b
    let c1 ← if (sum : Int) ≠ (a : Int) - (b : Int) then c.setReg 0xF 1 else pure c
    c1.setReg Vx sum
  else if sel = 0x6 then do
    let a ← readAt c.registers Vx
    let c1 ← c.setReg 0xF (u8 (a <<< 7) >>> 7)
    let a1 ← readAt c1.registers Vx
    c1.setReg Vx (a1 >>> 1)
  else if sel = 0x7 then do
    let a ← readAt c.registers Vx
    let b ← readAt c.registers Vy
    let sum := sub8 b a
    let c1 ← if (sum : Int) ≠ (b : Int) - (a : Int) then c.setReg 0xF 1 else pure c
    c1.setReg Vx sum
  else if sel = 0x8 then do
    let a ← readAt c.registers Vx
    let c1 ← c.setReg 0xF (a >>> 7)
    let a1 ← readAt c1.registers Vx
    c1.setReg Vx (u8 (a1 <<< 1))
  else pure c

/-- The `case 0xE` arm of `DecodeExecute`: the inner switch on
`instance.IR << 8 >> 8`. -/
def Chip8.executeE (env : Env) (c : Chip8) : Except Fault Chip8 :=
  let Vx := opX c.IR
  let sel := opNN c.IR
  if sel = 0x9E then do
    let key ← readAt c.registers Vx
    match env.keySym with
    | some sym =>
      if env.keyFromName key = sym then pure { c with PC := u16 (c.PC + 2) } else pure c
    | none => pure c
  else if sel = 0xA1 then do
    let key ← readAt c.registers Vx
    match env.keySym with
    | some sym =>
      if env.keyFromName key ≠ sym then pure { c with PC := u16 (c.PC + 2) } else pure c
    | none => pure c
  else pure c

/-- The loop `for i := uint16(lo); i < (Vx + 1); i++ { dst[dOff+i] = src[sOff+i] }`
shared in shape by the `0x55` and `0x65` arms; `k` is the number of iterations
left and `i` the current index. -/
def copyLoop (src : List Nat) (sOff : Nat → Nat) (dOff : Nat → Nat) :
    Nat → Nat → List Nat → Except Fault (List Nat)
  | 0, _, dst => pure dst
  | k + 1, i, dst => do
    let v ← readAt src (sOff i)
    let dst ← writeAt dst (dOff i) v
    copyLoop src sOff dOff k (i + 1) dst

/-- The `case 0xF` arm of `DecodeExecute`: the inner switch on
`instance.IR << 8 >> 12`. -/
def Chip8.executeF (env : Env) (c : Chip8) : Except Fault Chip8 :=
  let Vx := opX c.IR
  let sel := opY c.IR
  if sel = 0x07 then
    let (v, t) := c.delayTimer.GetValue env.ticks
    Chip8.setReg { c with delayTimer := t } Vx v
  else if sel = 0x0A then
    .error .keyWait
  else if sel = 0x15 then do
    let v ← readAt c.registers Vx
    pure { c with delayTimer := c.delayTimer.Start env.ticks v }
  else if sel = 0x18 then do
    let v ← readAt c.registers Vx
    pure { c with soundTimer := c.soundTimer.Start env.ticks v }
  else if sel = 0x1E then do
    let v ← readAt c.registers Vx
    pure { c with I := u16 (c.I + v) }
  else if sel = 0x29 then do
    let v ← readAt c.registers Vx
    let spriteAddress ← readAt c.memory (u8 (v * 5))
    pure { c with I := spriteAddress }
  else if sel = 0x33 then do
    let v ← readAt c.registers Vx
    let hundreds := v / 100
    let tens := sub8 (v / 10) (u8 (hundreds * 10))
    let ones := sub8 (sub8 v (u8 (tens * 10))) (u8 (hundreds * 100))
    let m ← writeAt c.memory c.I hundreds
    let m ← writeAt m (u16 (c.I + 1)) tens
    let m ← writeAt m (u16 (c.I + 2)) ones
    pure { c with memory := m }
  else if sel = 0x55 then do
    let m ← copyLoop c.registers (fun i => i) (fun i => u16 (c.I + i))
      (Vx + 1 - 0) 0 c.memory
    pure { c with memory := m }
  else if sel = 0x65 then do
    let r ← copyLoop c.memory (fun i => u16 (c.I + i)) (fun i => i)
      (Vx + 1 - 16) 16 c.registers
    pure { c with registers := r }
  else pure c

/-- `func (instance *Chip8) DecodeExecute(debugLog *Log)`: the outer switch on
`instance.IR >> 12`. -/
def Chip8.DecodeExecute (env : Env) (c : Chip8) : Except Fault Chip8 :=
  let op := c.IR >>> 12
  if op = 0x0 then
    if c.IR = 0x00E0 then do
      let d ← c.display.Clear
      pure { c with display := d }
    else if c.IR = 0x00EE then do
      let (pc, stack) ← c.stack.pop
      pure { c with stack := stack, PC := pc }
    else pure c
  else if op = 0x1 then
    pure { c with PC := opNNN c.IR }
  else if op = 0x2 then do
    let stack ← c.stack.push c.PC
    pure { c with stack := stack, PC := opNNN c.IR }
  else if op = 0x3 then do
    let v ← readAt c.registers (opX c.IR)
    if v = u8 (opNN c.IR) then pure { c with PC := u16 (c.PC + 2) } else pure c
  else if op = 0x4 then do
    let v ← readAt c.registers (opX c.IR)
    if v ≠ u8 (opNN c.IR) then pure { c with PC := u16 (c.PC + 2) } else pure c
  else if op = 0x5 then do
    let a ← readAt c.registers (opX c.IR)
    let b ← readAt c.registers (opY c.IR)
    if a = b then pure { c with PC := u16 (c.PC + 2) } else pure c
  else if op = 0x6 then
    c.setReg (opX c.IR) (u8 (opNN c.IR))
  else if op = 0x7 then do
    let v ← readAt c.registers (opX c.IR)
    c.setReg (opX c.IR) (u8 (v + u8 (opNN c.IR)))
  else if op = 0x8 then
    c.execute8
  else if op = 0x9 then do
    let a ← readAt c.registers (opX c.IR)
    let b ← readAt c.registers (opY c.IR)
    if a ≠ b then pure { c with PC := u16 (c.PC + 2) } else pure c
  else if op = 0xA then
    pure { c with I := opNNN c.IR }
  else if op = 0xB then do
    let v0 ← readAt c.registers 0x0
    pure { c with PC := u16 (v0 + opNNN c.IR) }
  else if op = 0xC then
    c.setReg (opX c.IR) (u8 env.rand &&& u8 (opY c.IR))
  else if op = 0xD then
    c.Draw (u8 (opX c.IR)) (u8 (opY c.IR)) (u8 (opN c.IR))
  else if op = 0xE then
    c.executeE env
  else if op = 0xF then
    c.executeF env
  else pure c

/-! ## Concrete inputs -/

/-- Collaborator inputs for concrete runs: tick 0, random value 0, no event. -/
def quietEnv : Env :=
  { ticks := 0, rand := 0, keySym := none, keyFromName := fun _ => 0 }

/-- The memory of a 64 by 32 texture with 4 bytes per pixel (pitch 256) in
which every pixel is white, that is, off. -/
def blankTexture : List Nat := List.replicate 8192 0xFF

/-- The machine `newInstance` builds for an empty ROM and a blank texture, with
the registers, `I` and `IR` given and `PC` after one fetch. -/
def machine (registers : List Nat) (I IR : Nat) : Chip8 :=
  { stack := { stack := List.replicate 30 0, pointer := -1 },
    memory := fonts ++ List.replicate 4016 0,
    registers := registers,
    I := I, PC := 0x202, IR := IR,
    display := InitDisplay blankTexture 256,
    delayTimer := InitTimer,
    soundTimer := InitTimer }

/-- The machine `machine registers I IR` at call depth `depth`: the stack slice
holds the return address `0x2A0` in every slot and the pointer is `depth - 1`. -/
def machineAtDepth (depth : Nat) (registers : List Nat) (I IR : Nat) : Chip8 :=
  { machine registers I IR with
    stack := { stack := List.replicate 30 0x2A0, pointer := (depth : Int) - 1 } }

/-- Sixteen registers with V0 = `a`, V1 = `b` and all others 0. -/
def regs16 (a b : Nat) : List Nat := [a, b, 0, 0, 0, 0, 0, 0, 0, 0, 0, 0, 0, 0, 0, 0]

/-- Execute the instruction in `IR` twice in a row (`DecodeExecute` without a
fetch in between), returning the state after each execution. -/
def executeTwice (env : Env) (c : Chip8) : Except Fault (Chip8 × Chip8) := do
  let c1 ← c.DecodeExecute env
  let c2 ← c1.DecodeExecute env
  pure (c1, c2)

/-- Whether a run returned normally. -/
def returns (r : Except Fault Chip8) : Bool :=
  match r with
  | .ok _ => true
  | .error _ => false

/-- The state a run returned, or `c` when it stopped with a fault. -/
def returned (r : Except Fault Chip8) (c : Chip8) : Chip8 :=
  match r with
  | .ok s => s
  | .error _ => c

/-- The machine `machine registers 0 IR` showing a texture in which every
pixel is on (every byte `0x00`). -/
def machineLit (registers : List Nat) (IR : Nat) : Chip8 :=
  { machine registers 0 IR with display := InitDisplay (List.replicate 8192 0x00) 256 }

/-- The freshly built machine with the program counter at `pc`. -/
def machineAtPC (pc : Nat) : Chip8 :=
  { stack := { stack := List.replicate 30 0, pointer := -1 },
    memory := fonts ++ List.replicate 4016 0,
    registers := regs16 0 0,
    I := 0, PC := pc, IR := 0,
    display := InitDisplay blankTexture 256,
    delayTimer := InitTimer,
    soundTimer := InitTimer }

/-- A sequence of `GetValue` calls on one timer, one call per clock reading of
`nows` in order: the values returned and the timer afterwards. -/
def Timer.readings (t : Timer) : List Nat → List Nat × Timer
  | [] => ([], t)
  | now :: rest =>
    let r := t.GetValue now
    let rs := Timer.readings r.2 rest
    (r.1 :: rs.1, rs.2)

/-- Collaborator inputs in which `rand.Intn(255)` returns `r`. -/
def envWithRand (r : Nat) : Env :=
  { ticks := 0, rand := r, keySym := none, keyFromName := fun _ => 0 }

/-- One iteration of the loop of `Cycle`: `Fetch`, then `DecodeExecute`. -/
def Chip8.step (env : Env) (c : Chip8) : Except Fault Chip8 := do
  let c1 ← c.Fetch
  c1.DecodeExecute env

/-- As many iterations of the loop of `Cycle` as `envs` has entries, the k-th
one with the collaborator inputs `envs[k]`. -/
def Chip8.run (c : Chip8) (envs : List Env) : Except Fault Chip8 :=
  envs.foldlM (fun s env => s.step env) c

/-- How many of the pixels `0 .. j-1` that `GetPixels` samples for row `i` are
on, that is, have the byte `0x00`. -/
def onCount (Pixels : List Nat) (pitch Vy Vx i j : Nat) : Nat :=
  ((List.range j).filter
    (fun jj => decide (Pixels[readPos pitch Vy Vx i jj]? = some 0x0))).length

/-- A locked display whose 64 by 32 texture (pitch 256) has pixel 0 of row 0 on and
every other pixel off. -/
def sampleDisplay : Display :=
  (InitDisplay ([0, 0, 0, 0] ++ List.replicate 8188 0xFF) 256).Lock

/-- The run `r`, if it returns, returns a state whose memory is `m`. -/
def KeepsMemory (m : List Nat) (r : Except Fault Chip8) : Prop :=
  ∀ c1, r = .ok c1 → c1.memory = m

/-! ## Lemmas on the result type -/

@[simp] theorem ok_bind {α β : Type} (a : α) (f : α → Except Fault β) :
    (Except.ok a >>= f) = f a := rfl

@[simp] theorem error_bind {α β : Type} (e : Fault) (f : α → Except Fault β) :
    ((Except.error e : Except Fault α) >>= f) = Except.error e := rfl

@[simp] theorem map_ok {α β : Type} (a : α) (f : α → β) :
    (f <$> (Except.ok a : Except Fault α)) = Except.ok (f a) := rfl

@[simp] theorem map_error {α β : Type} (e : Fault) (f : α → β) :
    (f <$> (Except.error e : Except Fault α)) = Except.error e := rfl

@[simp] theorem pure_eq_ok {α : Type} (a : α) :
    (pure a : Except Fault α) = Except.ok a := rfl

theorem eq_ok_returned (r : Except Fault Chip8) (c : Chip8) (h : returns r = true) :
    r = .ok (returned r c) := by
  cases r with
  | error e => simp [returns] at h
  | ok s => rfl

/-! ## Decoding lemmas -/

theorem shr12_opcode (k x y n : Nat) (hx : x < 16) (hy : y < 16) (hn : n < 16) :
    (k * 4096 + x * 256 + y * 16 + n) >>> 12 = k := by
  simp only [Nat.shiftRight_eq_div_pow]; omega

theorem opX_opcode (k x y n : Nat) (hx : x < 16) (hy : y < 16) (hn : n < 16) :
    opX (k * 4096 + x * 256 + y * 16 + n) = x := by
  simp only [opX, u16, Nat.shiftLeft_eq, Nat.shiftRight_eq_div_pow]; omega

theorem opY_opcode (k x y n : Nat) (hy : y < 16) (hn : n < 16) :
    opY (k * 4096 + x * 256 + y * 16 + n) = y := by
  simp only [opY, u16, Nat.shiftLeft_eq, Nat.shiftRight_eq_div_pow]; omega

theorem opN_opcode (k x y n : Nat) (hn : n < 16) :
    opN (k * 4096 + x * 256 + y * 16 + n) = n := by
  simp only [opN, u16, Nat.shiftLeft_eq, Nat.shiftRight_eq_div_pow]; omega

theorem readAt_of_getElem? {xs : List Nat} {i v : Nat} (h : xs[i]? = some v) :
    readAt xs i = .ok v := by
  simp [readAt, h]

theorem writeAt_of_lt {xs : List Nat} {i : Nat} (v : Nat) (h : i < xs.length) :
    writeAt xs i v = .ok (xs.set i v) := by
  simp [writeAt, h]

/-! ## Opcode 8xy4 -/

/-- C1 (defect in the code): opcode `8014` on a machine with V0 = 1, V1 = 1 and
VF = 1 left over from an earlier instruction. The sum 2 does not exceed 255,
yet the registers after `DecodeExecute` are V0 = 2 and VF = 1: the `0x4` arm
only ever stores 1 into VF and has no branch that clears it. -/
theorem add_leaves_stale_carry_flag :
    Except.map Chip8.registers
      (Chip8.DecodeExecute quietEnv
        (machine [1, 1, 0, 0, 0, 0, 0, 0, 0, 0, 0, 0, 0, 0, 0, 1] 0 0x8014))
      = Except.ok [2, 1, 0, 0, 0, 0, 0, 0, 0, 0, 0, 0, 0, 0, 0, 1] := by
  decide

/-! ## Opcode 8xy5 -/

/-- C2 (counterexample): opcode `8015` with V0 = 5, V1 = 3 and VF = 0. No borrow
occurs (5 ≥ 3), the claim asks for VF = 1, and the registers after
`DecodeExecute` are V0 = 2 with VF still 0. -/
theorem sub_without_borrow_leaves_flag_zero :
    Except.map Chip8.registers
      (Chip8.DecodeExecute quietEnv
        (machine [5, 3, 0, 0, 0, 0, 0, 0, 0, 0, 0, 0, 0, 0, 0, 0] 0 0x8015))
      = Except.ok [2, 3, 0, 0, 0, 0, 0, 0, 0, 0, 0, 0, 0, 0, 0, 0] := by
  decide

/-- C2 (amended): for every machine state with sixteen byte registers and every
opcode `8xy5` with `x ≠ 0xF`, where `a = Vx` and `b = Vy` before execution,
`DecodeExecute` returns, `Vx = (a - b) mod 256` afterwards, and `VF = 1` when
`a < b`, that is, when the subtraction borrows. -/
theorem sub_sets_flag_on_borrow (env : Env) (c : Chip8) (x y a b : Nat)
    (hx : x < 16) (hy : y < 16) (hxF : x ≠ 15)
    (hIR : c.IR = 0x8005 + x * 256 + y * 16)
    (hlen : c.registers.length = 16)
    (ha : c.registers[x]? = some a) (hb : c.registers[y]? = some b)
    (ha8 : a < 256) (hb8 : b < 256) :
    ∃ c1, Chip8.DecodeExecute env c = .ok c1 ∧
      (∃ v, c1.registers[x]? = some v ∧ (v : Int) = ((a : Int) - (b : Int)) % 256) ∧
      (a < b → c1.registers[15]? = some 1) := by
  have h12 : c.IR >>> 12 = 8 := by
    rw [hIR]; simp only [Nat.shiftRight_eq_div_pow]; omega
  have hX : opX c.IR = x := by
    rw [hIR]; simp only [opX, u16, Nat.shiftLeft_eq, Nat.shiftRight_eq_div_pow]; omega
  have hY : opY c.IR = y := by
    rw [hIR]; simp only [opY, u16, Nat.shiftLeft_eq, Nat.shiftRight_eq_div_pow]; omega
  have hN : opN c.IR = 5 := by
    rw [hIR]; simp only [opN, u16, Nat.shiftLeft_eq, Nat.shiftRight_eq_div_pow]; omega
  have hv : ((sub8 a b : Nat) : Int) = ((a : Int) - (b : Int)) % 256 := by
    simp only [sub8]; omega
  by_cases hlt : a < b
  · have hne : ((sub8 a b : Nat) : Int) ≠ (a : Int) - (b : Int) := by
      simp only [sub8]; omega
    refine ⟨{ c with registers := (c.registers.set 15 1).set x (sub8 a b) }, ?_, ?_, ?_⟩
    · simp [Chip8.DecodeExecute, h12, Chip8.execute8, hX, hY, hN, readAt_of_getElem? ha,
        readAt_of_getElem? hb, Chip8.setReg, writeAt, hlen, hne, hx]
    · exact ⟨sub8 a b, by simp [List.getElem?_set_self, hlen, hx], hv⟩
    · intro _
      have h15 : x ≠ 15 := hxF
      simp [List.getElem?_set_ne h15, List.getElem?_set_self, hlen]
  · have heq : ((sub8 a b : Nat) : Int) = (a : Int) - (b : Int) := by
      simp only [sub8]; omega
    refine ⟨{ c with registers := c.registers.set x (sub8 a b) }, ?_, ?_, ?_⟩
    · simp [Chip8.DecodeExecute, h12, Chip8.execute8, hX, hY, hN, readAt_of_getElem? ha,
        readAt_of_getElem? hb, Chip8.setReg, writeAt, hlen, heq, hx]
    · exact ⟨sub8 a b, by simp [List.getElem?_set_self, hlen, hx], hv⟩
    · intro h; exact absurd h hlt

/-- Witness for `sub_sets_flag_on_borrow`: opcode `8015` with V0 = 3, V1 = 5. -/
theorem sub_sets_flag_on_borrow_witness :
    ∃ c1, Chip8.DecodeExecute quietEnv
        (machine [3, 5, 0, 0, 0, 0, 0, 0, 0, 0, 0, 0, 0, 0, 0, 0] 0 0x8015) = .ok c1 ∧
      (∃ v : Nat, c1.registers[0]? = some v ∧ (v : Int) = (((3 : Nat) : Int) - ((5 : Nat) : Int)) % 256) ∧
      (3 < 5 → c1.registers[15]? = some 1) :=
  sub_sets_flag_on_borrow quietEnv
    (machine [3, 5, 0, 0, 0, 0, 0, 0, 0, 0, 0, 0, 0, 0, 0, 0] 0 0x8015) 0 1 3 5
    (by decide) (by decide) (by decide) (by decide) (by decide) (by decide) (by decide)
    (by decide) (by decide)

/-! ## The call stack -/

theorem push_ok (s : Stack) (v : Nat) (h0 : 0 ≤ s.pointer + 1)
    (h1 : s.pointer + 1 < s.stack.length) :
    s.push v = .ok { stack := s.stack.set (s.pointer + 1).toNat v, pointer := s.pointer + 1 } := by
  have : (s.pointer + 1).toNat < s.stack.length := by omega
  simp [Stack.push, h0, writeAt, this]

theorem pop_ok (s : Stack) (v : Nat) (h0 : 0 ≤ s.pointer)
    (h : s.stack[s.pointer.toNat]? = some v) :
    s.pop = .ok (v, { s with pointer := s.pointer - 1 }) := by
  simp [Stack.pop, h0, readAt, h]

theorem popN_succ_right (k : Nat) : ∀ s : Stack,
    s.popN (k + 1) = (do
      let (xs, t) ← s.popN k
      let (w, t1) ← t.pop
      pure (xs ++ [w], t1)) := by
  induction k with
  | zero =>
    intro s
    simp only [Stack.popN]
    cases h : s.pop <;> simp [h]
  | succ k ih =>
    intro s
    rw [Stack.popN]
    cases h : s.pop with
    | error e => simp [Stack.popN, h]
    | ok r =>
      obtain ⟨v, s1⟩ := r
      simp only [ok_bind]
      rw [ih s1]
      conv_rhs => rw [Stack.popN]
      simp only [h, ok_bind]
      cases h2 : s1.popN k with
      | error e => simp
      | ok r2 =>
        obtain ⟨xs, t⟩ := r2
        simp only [ok_bind]
        cases h3 : t.pop <;> simp [h3]

theorem pushAll_popN (vs : List Nat) : ∀ s : Stack, 0 ≤ s.pointer + 1 →
    s.pointer + 1 + vs.length ≤ s.stack.length →
    ∃ s1 s2, s.pushAll vs = .ok s1 ∧ s1.popN vs.length = .ok (vs.reverse, s2) ∧
      s2.pointer = s.pointer ∧ s2.stack.length = s.stack.length ∧
      ∀ i : Nat, (i : Int) ≤ s.pointer → s2.stack[i]? = s.stack[i]? := by
  induction vs with
  | nil =>
    intro s _ _
    exact ⟨s, s, rfl, rfl, rfl, rfl, fun _ _ => rfl⟩
  | cons v vs ih =>
    intro s h0 h1
    simp only [List.length_cons, Nat.cast_add, Nat.cast_one] at h1
    have hpush := push_ok s v h0 (by omega)
    obtain ⟨s1, s2, hp, hq, hptr, hlen, hkeep⟩ :=
      ih { stack := s.stack.set (s.pointer + 1).toNat v, pointer := s.pointer + 1 }
        (by simp only; omega) (by simp only [List.length_set]; omega)
    simp only [List.length_set] at hptr hlen hkeep
    have htop : s2.stack[s2.pointer.toNat]? = some v := by
      rw [hptr]
      have := hkeep (s.pointer + 1).toNat (by omega)
      rw [this]
      exact List.getElem?_set_self (by omega)
    refine ⟨s1, { s2 with pointer := s2.pointer - 1 }, ?_, ?_, ?_, hlen, ?_⟩
    · simp only [Stack.pushAll, List.foldlM_cons, hpush, ok_bind]
      exact hp
    · rw [List.length_cons, popN_succ_right, hq]
      simp only [ok_bind, pop_ok s2 v (by omega) htop, List.reverse_cons, pure_eq_ok]
    · simp only [hptr]; omega
    · intro i hi
      rw [hkeep i (by omega)]
      exact List.getElem?_set_ne (by omega)

/-- C3: for every list of at most 16 return addresses pushed in order onto an
empty stack (pointer -1, the 30-slot slice of `newInstance`), all pushes
succeed, as many pops return the addresses in reverse order and leave the
pointer at -1 again; and a pop right after `push v` returns `v`. -/
theorem push_then_pop_reverses (s : Stack) (vs : List Nat)
    (hempty : s.pointer = -1) (hcap : s.stack.length = 30) (hk : vs.length ≤ 16) :
    (∃ s1 s2, s.pushAll vs = .ok s1 ∧ s1.popN vs.length = .ok (vs.reverse, s2) ∧
      s2.pointer = -1) ∧
    (∀ v, ∃ s1 s2, s.push v = .ok s1 ∧ s1.pop = .ok (v, s2) ∧ s2.pointer = -1) := by
  constructor
  · obtain ⟨s1, s2, h1, h2, h3, _, _⟩ :=
      pushAll_popN vs s (by omega) (by omega)
    exact ⟨s1, s2, h1, h2, by omega⟩
  · intro v
    obtain ⟨s1, s2, h1, h2, h3, _, _⟩ :=
      pushAll_popN [v] s (by omega) (by simp only [List.length_singleton]; omega)
    simp only [Stack.pushAll, List.foldlM_cons, List.foldlM_nil] at h1
    cases hp : s.push v with
    | error e => simp [hp] at h1
    | ok t =>
      simp only [hp, ok_bind, pure_eq_ok, Except.ok.injEq] at h1
      subst h1
      simp only [List.length_singleton, Stack.popN, List.reverse_singleton] at h2
      cases hq : t.pop with
      | error e => simp [hq] at h2
      | ok r =>
        obtain ⟨w, t2⟩ := r
        simp only [hq, ok_bind, pure_eq_ok, Except.ok.injEq, Prod.mk.injEq,
          List.cons.injEq, and_true] at h2
        obtain ⟨hw, ht⟩ := h2
        subst hw ht
        exact ⟨t, t2, rfl, hq, by omega⟩

/-- Witness for `push_then_pop_reverses`: three return addresses on the empty
stack of `newInstance`. -/
theorem push_then_pop_reverses_witness :
    (∃ s1 s2, Stack.pushAll { stack := List.replicate 30 0, pointer := -1 }
        [0x202, 0x2A4, 0x3F0] = .ok s1 ∧
      s1.popN [0x202, 0x2A4, 0x3F0].length = .ok ([0x202, 0x2A4, 0x3F0].reverse, s2) ∧
      s2.pointer = -1) ∧
    (∀ v, ∃ s1 s2, Stack.push { stack := List.replicate 30 0, pointer := -1 } v = .ok s1 ∧
      s1.pop = .ok (v, s2) ∧ s2.pointer = -1) :=
  push_then_pop_reverses { stack := List.replicate 30 0, pointer := -1 }
    [0x202, 0x2A4, 0x3F0] (by decide) (by decide) (by decide)

/-- C4 (counterexample): a stack that already holds 16 return addresses
(pointer 15, the 30-slot slice of `newInstance`). A further `push`, and opcode
`2300` at call depth 16 (with `PC = 0x202`), return normally and store the
17th address at index 16. -/
theorem seventeenth_push_succeeds :
    Stack.push { stack := List.replicate 30 0x2A0, pointer := 15 } 0x2A4
      = Except.ok { stack := (List.replicate 30 0x2A0).set 16 0x2A4, pointer := 16 } ∧
    Except.map (fun c => (c.stack.pointer, c.stack.stack[16]?, c.PC))
      (Chip8.DecodeExecute quietEnv (machineAtDepth 16 (List.replicate 16 0) 0 0x2300))
      = Except.ok (16, some 0x202, 0x300) := by
  decide

/-- C4 (amended): the call stack holds at most 30 return addresses. For every
machine whose stack slice has the 30 slots `newInstance` allocates and every
opcode `2nnn`: with 30 addresses on the stack (pointer 29) a further `push`, and
hence `2nnn`, stops with the index-out-of-range fault and stores nothing; with
fewer (pointer from -1 to 28, so also at depth 16) `push v` returns, stores `v`
in the next slot and raises the pointer by one, and `2nnn` pushes `PC` and
jumps to `nnn`. -/
theorem call_stack_capacity_is_thirty (env : Env) (c : Chip8) (nnn : Nat)
    (hn : nnn < 4096) (hIR : c.IR = 0x2000 + nnn) (hcap : c.stack.stack.length = 30) :
    (c.stack.pointer = 29 →
      (∀ v, c.stack.push v = .error .indexOutOfRange) ∧
      c.DecodeExecute env = .error .indexOutOfRange) ∧
    (-1 ≤ c.stack.pointer → c.stack.pointer < 29 →
      (∀ v, ∃ s1, c.stack.push v = .ok s1 ∧ s1.pointer = c.stack.pointer + 1 ∧
        s1.stack[(c.stack.pointer + 1).toNat]? = some v) ∧
      ∃ s1, c.stack.push c.PC = .ok s1 ∧
        c.DecodeExecute env = .ok { c with stack := s1, PC := nnn }) := by
  have h12 : c.IR >>> 12 = 2 := by
    rw [hIR]; simp only [Nat.shiftRight_eq_div_pow]; omega
  have hnnn : opNNN c.IR = nnn := by
    rw [hIR]; simp only [opNNN, u16, Nat.shiftLeft_eq, Nat.shiftRight_eq_div_pow]; omega
  constructor
  · intro hfull
    have hpush : ∀ v, c.stack.push v = .error .indexOutOfRange := by
      intro v
      simp [Stack.push, hfull, writeAt, hcap]
    exact ⟨hpush, by simp [Chip8.DecodeExecute, h12, hpush]⟩
  · intro hlo hhi
    have hpush : ∀ v, c.stack.push v = .ok
        { stack := c.stack.stack.set (c.stack.pointer + 1).toNat v,
          pointer := c.stack.pointer + 1 } :=
      fun v => push_ok c.stack v (by omega) (by omega)
    constructor
    · intro v
      exact ⟨_, hpush v, rfl, List.getElem?_set_self (by omega)⟩
    · exact ⟨_, hpush c.PC, by simp [Chip8.DecodeExecute, h12, hpush, hnnn]⟩

/-- Witness for `call_stack_capacity_is_thirty`: opcode `2300` at call depth 30. -/
theorem call_stack_capacity_is_thirty_witness :
    (machineAtDepth 30 (List.replicate 16 0) 0 0x2300).stack.pointer = 29 ∧
    (∀ v, (machineAtDepth 30 (List.replicate 16 0) 0 0x2300).stack.push v
      = .error .indexOutOfRange) ∧
    (machineAtDepth 30 (List.replicate 16 0) 0 0x2300).DecodeExecute quietEnv
      = .error .indexOutOfRange :=
  ⟨by decide,
   (call_stack_capacity_is_thirty quietEnv
      (machineAtDepth 30 (List.replicate 16 0) 0 0x2300) 0x300
      (by decide) (by decide) (by decide)).1 (by decide)⟩

/-- C5: for every machine state whose call stack is empty (pointer -1), `pop`
stops with the index-out-of-range fault, and so does `DecodeExecute` on opcode
`00EE`: no address is returned and the pointer does not wrap. -/
theorem pop_on_empty_stack_faults (env : Env) (c : Chip8)
    (hempty : c.stack.pointer = -1) (hIR : c.IR = 0x00EE) :
    c.stack.pop = .error .indexOutOfRange ∧
    c.DecodeExecute env = .error .indexOutOfRange := by
  have hpop : c.stack.pop = .error .indexOutOfRange := by
    simp [Stack.pop, hempty]
  exact ⟨hpop, by simp [Chip8.DecodeExecute, hIR, hpop]⟩

/-- Witness for `pop_on_empty_stack_faults`: opcode `00EE` as the first
instruction of a program. -/
theorem pop_on_empty_stack_faults_witness :
    (machine (List.replicate 16 0) 0 0x00EE).stack.pop = .error .indexOutOfRange ∧
    (machine (List.replicate 16 0) 0 0x00EE).DecodeExecute quietEnv
      = .error .indexOutOfRange :=
  pop_on_empty_stack_faults quietEnv (machine (List.replicate 16 0) 0 0x00EE)
    (by decide) (by decide)

/-! ## Opcodes Fx33, Fx55, Fx65 -/

set_option maxRecDepth 100000 in
/-- C6 (defect in the code): opcode `F033` with V0 = 234 and I = 0x300. The
claim asks for the digits 2, 3, 4 in `memory[0x300..0x302]`; after
`DecodeExecute` the three bytes are still 0. The switch of the `0xF` arm selects
on `IR << 8 >> 12`, which is 3 here, so `case 0x33` is never taken. -/
theorem bcd_store_is_not_reached :
    Except.map (fun c => (c.memory[0x300]?, c.memory[0x301]?, c.memory[0x302]?))
      ((machine (regs16 234 0) 0x300 0xF033).DecodeExecute quietEnv)
      = Except.ok (some 0, some 0, some 0) := by
  decide!

set_option maxRecDepth 100000 in
/-- C7 (defect in the code): opcode `F555` with V0..V5 = 1..6 and I = 0x300,
then V0..V5 overwritten with 9, then opcode `F565`. The claim asks for V0..V5
to be 1..6 again; after the two executions `memory[0x300..0x305]` is still 0
and V0..V5 are still 9: neither `case 0x55` nor `case 0x65` is taken. -/
theorem register_dump_and_load_are_not_reached :
    (do
      let c1 ← (machine [1, 2, 3, 4, 5, 6, 0, 0, 0, 0, 0, 0, 0, 0, 0, 0] 0x300
        0xF555).DecodeExecute quietEnv
      let c2 ← Chip8.DecodeExecute quietEnv
        { c1 with registers := [9, 9, 9, 9, 9, 9, 0, 0, 0, 0, 0, 0, 0, 0, 0, 0], IR := 0xF565 }
      pure ((c1.memory.drop 0x300).take 6, c2.registers))
      = Except.ok ([0, 0, 0, 0, 0, 0], [9, 9, 9, 9, 9, 9, 0, 0, 0, 0, 0, 0, 0, 0, 0, 0]) := by
  decide!

/-! ## Opcode Dxyn on concrete textures -/

set_option maxRecDepth 100000 in
/-- C8 (defect in the code): opcode `D011` executed twice on the blank texture
with origin (V0, V1) = (0, 1) and I = 0, the sprite row `0xF0` of the font. The
first 32 texture bytes (pixels 0..7 of row 0) are all `0xFF` before; after the
first draw pixels 0..3 are on (`0x00`), and after the second draw they are
still on, so the texture is not back in its state before the first draw. -/
theorem second_draw_does_not_restore_texture :
    (machine (regs16 0 1) 0 0xD011).display.texture.take 32 = List.replicate 32 0xFF ∧
    Except.map (fun p => (p.1.display.texture.take 32, p.2.display.texture.take 32))
      (executeTwice quietEnv (machine (regs16 0 1) 0 0xD011))
      = Except.ok
        (List.replicate 16 0 ++ List.replicate 16 0xFF,
         List.replicate 16 0 ++ List.replicate 16 0xFF) := by
  decide!

set_option maxRecDepth 100000 in
/-- C9 (defect in the code): opcode `D011` executed twice on the blank texture
with origin (V0, V1) = (0, 1) and I = 13, the sprite row `0x80`. The first draw
turns pixel 0 on with VF = 0; the second draw turns that pixel off again, a
collision, and leaves VF = 128 instead of 1. -/
theorem collision_flag_is_not_one :
    Except.map
      (fun p => (p.1.display.texture.take 8, p.1.registers[15]?,
                 p.2.display.texture.take 8, p.2.registers[15]?))
      (executeTwice quietEnv (machine (regs16 0 1) 13 0xD011))
      = Except.ok
        ([0, 0, 0, 0, 255, 255, 255, 255], some 0,
         [255, 255, 255, 255, 255, 255, 255, 255], some 128) := by
  decide!

/-! ## Loops -/

/-- Invariant rule for a `for i := 0; i < n; i++` loop that returns. -/
theorem foldlM_range_inv {σ : Type} (f : σ → Nat → Except Fault σ)
    (P : Nat → σ → Prop) : ∀ (n : Nat) (s0 s1 : σ),
    (List.range n).foldlM f s0 = .ok s1 → P 0 s0 →
    (∀ i, i < n → ∀ s t, P i s → f s i = .ok t → P (i + 1) t) → P n s1 := by
  intro n
  induction n with
  | zero =>
    intro s0 s1 h h0 _
    simp only [List.range_zero, List.foldlM_nil, pure_eq_ok, Except.ok.injEq] at h
    exact h ▸ h0
  | succ n ih =>
    intro s0 s1 h h0 hstep
    rw [List.range_succ, List.foldlM_append] at h
    cases hn : (List.range n).foldlM f s0 with
    | error e => simp [hn] at h
    | ok s =>
      have hPn : P n s :=
        ih s0 s hn h0 (fun i hi => hstep i (Nat.lt_succ_of_lt hi))
      simp only [hn, ok_bind, List.foldlM_cons, List.foldlM_nil] at h
      cases hf : f s n with
      | error e => simp [hf] at h
      | ok t =>
        simp only [hf, ok_bind, pure_eq_ok, Except.ok.injEq] at h
        exact h ▸ hstep n (Nat.lt_succ_self n) s t hPn hf

theorem readAt_ok {xs : List Nat} {i v : Nat} (h : readAt xs i = .ok v) :
    xs[i]? = some v := by
  unfold readAt at h
  cases hx : xs[i]? with
  | none => simp [hx] at h
  | some w => simp [hx] at h; rw [h]

theorem writeAt_ok {xs ys : List Nat} {i v : Nat} (h : writeAt xs i v = .ok ys) :
    i < xs.length ∧ ys = xs.set i v := by
  unfold writeAt at h
  by_cases hi : i < xs.length
  · simp [hi] at h; exact ⟨hi, h.symm⟩
  · simp [hi] at h

/-! ## BitToByte -/

theorem writePos_eq (pitch Y X i j : Nat) :
    writePos pitch Y X i j = writePos pitch Y X i 0 + 4 * j := by
  simp only [writePos]; omega

theorem bitToByteStep_ok {bits : List Nat} {pitch Y X i j : Nat} {px px1 : List Nat}
    (h : bitToByteStep bits pitch Y X i px j = .ok px1) :
    ∃ b, bits[i]? = some b ∧ writePos pitch Y X i j + 3 < px.length ∧
      px1 = (((px.set (writePos pitch Y X i j) (pixelByte b j)).set
        (writePos pitch Y X i j + 1) (pixelByte b j)).set
        (writePos pitch Y X i j + 2) (pixelByte b j)).set
        (writePos pitch Y X i j + 3) (pixelByte b j) := by
  unfold bitToByteStep at h
  cases hb : readAt bits i with
  | error e => simp [hb] at h
  | ok b =>
    simp only [hb, ok_bind] at h
    cases h0 : writeAt px (writePos pitch Y X i j) (pixelByte b j) with
    | error e => simp [h0] at h
    | ok p0 =>
      simp only [h0, ok_bind] at h
      cases h1 : writeAt p0 (writePos pitch Y X i j + 1) (pixelByte b j) with
      | error e => simp [h1] at h
      | ok p1 =>
        simp only [h1, ok_bind] at h
        cases h2 : writeAt p1 (writePos pitch Y X i j + 2) (pixelByte b j) with
        | error e => simp [h2] at h
        | ok p2 =>
          simp only [h2, ok_bind] at h
          obtain ⟨_, e0⟩ := writeAt_ok h0
          obtain ⟨_, e1⟩ := writeAt_ok h1
          obtain ⟨_, e2⟩ := writeAt_ok h2
          obtain ⟨l3, e3⟩ := writeAt_ok h
          subst e0 e1 e2
          simp only [List.length_set] at l3
          exact ⟨b, readAt_ok hb, l3, e3⟩

/-- What the inner loop of `BitToByte` leaves behind for row `i` when it
returns: the 32 bytes from `writePos pitch Y X i 0` hold the eight pixels of
`bits[i]`, every other byte is as before. -/
theorem bitToByteRow_ok {bits : List Nat} {pitch Y X i : Nat} {px px1 : List Nat}
    (h : bitToByteRow bits pitch Y X px i = .ok px1) :
    px1.length = px.length ∧
    (∀ q, q < writePos pitch Y X i 0 ∨ writePos pitch Y X i 0 + 32 ≤ q → px1[q]? = px[q]?) ∧
    (∃ b, bits[i]? = some b ∧ ∀ j, j < 8 → ∀ k, k < 4 →
      px1[writePos pitch Y X i j + k]? = some (pixelByte b j)) := by
  have key := foldlM_range_inv (bitToByteStep bits pitch Y X i)
    (fun j p => p.length = px.length ∧ (0 < j → ∃ b, bits[i]? = some b) ∧
      (∀ q, q < writePos pitch Y X i 0 ∨ writePos pitch Y X i 0 + 4 * j ≤ q → p[q]? = px[q]?) ∧
      (∀ b, bits[i]? = some b → ∀ jj, jj < j → ∀ k, k < 4 →
        p[writePos pitch Y X i 0 + 4 * jj + k]? = some (pixelByte b jj)))
    8 px px1 h
    ⟨rfl, fun h0 => absurd h0 (Nat.lt_irrefl 0), fun _ _ => rfl,
      fun _ _ jj hjj => absurd hjj (Nat.not_lt_zero jj)⟩
    (by
      intro j _ s t ⟨hlen, _, hframe, hdone⟩ hstep
      obtain ⟨b, hb, hin, ht⟩ := bitToByteStep_ok hstep
      rw [writePos_eq] at hin ht
      subst ht
      refine ⟨by simp only [List.length_set]; exact hlen, fun _ => ⟨b, hb⟩, ?_, ?_⟩
      · intro q hq
        rw [List.getElem?_set_ne (by omega), List.getElem?_set_ne (by omega),
          List.getElem?_set_ne (by omega), List.getElem?_set_ne (by omega)]
        exact hframe q (by omega)
      · intro b1 hb1 jj hjj k hk
        rw [hb] at hb1
        simp only [Option.some.injEq] at hb1
        subst hb1
        by_cases hj : jj = j
        · subst hj
          simp only [List.getElem?_set, List.length_set]
          split_ifs <;> first | rfl | omega
        · rw [List.getElem?_set_ne (by omega), List.getElem?_set_ne (by omega),
            List.getElem?_set_ne (by omega), List.getElem?_set_ne (by omega)]
          exact hdone b hb jj (by omega) k hk)
  obtain ⟨hlen, hex, hframe, hdone⟩ := key
  obtain ⟨b, hb⟩ := hex (by decide)
  refine ⟨hlen, fun q hq => hframe q (by omega), b, hb, ?_⟩
  intro j hj k hk
  rw [writePos_eq]
  exact hdone b hb j hj k hk

/-- What `BitToByte` leaves in `Pixels` when it returns, for a pitch of at
least 32 bytes (rows of eight 4-byte pixels do not overlap): for every row `r`
of `bits` and every bit position `j`, the four bytes at
`writePos pitch bitPosY bitPosX r j` hold `pixelByte bits[r] j`. -/
theorem BitToByte_ok {d d1 : Display} (h : d.BitToByte = .ok d1) (hp : 32 ≤ d.pitch) :
    d1 = { d with Pixels := d1.Pixels } ∧ d1.Pixels.length = d.Pixels.length ∧
    ∀ r, r < d.bits.length → ∃ b, d.bits[r]? = some b ∧ ∀ j, j < 8 → ∀ k, k < 4 →
      d1.Pixels[writePos d.pitch d.bitPosY d.bitPosX r j + k]? = some (pixelByte b j) := by
  unfold Display.BitToByte at h
  cases hl : (List.range d.bits.length).foldlM
      (bitToByteRow d.bits d.pitch d.bitPosY d.bitPosX) d.Pixels with
  | error e => simp [hl] at h
  | ok px =>
    simp only [hl, ok_bind, pure_eq_ok, Except.ok.injEq] at h
    subst h
    refine ⟨rfl, ?_⟩
    have key := foldlM_range_inv (bitToByteRow d.bits d.pitch d.bitPosY d.bitPosX)
      (fun i p => p.length = d.Pixels.length ∧
        ∀ r, r < i → ∃ b, d.bits[r]? = some b ∧ ∀ j, j < 8 → ∀ k, k < 4 →
          p[writePos d.pitch d.bitPosY d.bitPosX r j + k]? = some (pixelByte b j))
      d.bits.length d.Pixels px hl
      ⟨rfl, fun r hr => absurd hr (Nat.not_lt_zero r)⟩
      (by
        intro i _ s t ⟨hlen, hdone⟩ hrow
        obtain ⟨hlen1, hframe, b, hb, hnew⟩ := bitToByteRow_ok hrow
        refine ⟨hlen1.trans hlen, ?_⟩
        intro r hr
        by_cases hri : r = i
        · subst hri
          exact ⟨b, hb, hnew⟩
        · obtain ⟨b0, hb0, hold⟩ := hdone r (by omega)
          refine ⟨b0, hb0, ?_⟩
          intro j hj k hk
          rw [hframe _ ?_]
          · exact hold j hj k hk
          · left
            have h1 : (r + 1) * d.pitch ≤ i * d.pitch :=
              Nat.mul_le_mul_right _ (by omega)
            have h2 : (r + 1) * d.pitch = r * d.pitch + d.pitch := Nat.succ_mul _ _
            simp only [writePos]
            omega)
    exact key

/-! ## GetPixels and Draw -/

theorem pixelByte_eq (v b : Nat) (hb : b < 8) :
    pixelByte v b = if (v / 2 ^ (7 - b)) % 2 = 1 then 0x00 else 0xFF := by
  simp only [pixelByte, u8, not8, Nat.shiftLeft_eq, Nat.shiftRight_eq_div_pow]
  interval_cases b <;> simp only [Nat.reducePow, Nat.reduceSub] <;> split_ifs <;> omega

theorem GetPixels_ok {d d1 : Display} {vy vx n : Nat}
    (h : d.GetPixels vy vx n = .ok d1) :
    d1 = { d with bits := d1.bits, bitPosX := vx, bitPosY := vy } ∧
    d1.bits.length = n ∧
    ∀ r, r < n → ∃ g, getPixelsRow d.Pixels d.pitch vy vx r = .ok g ∧
      d1.bits[r]? = some g := by
  unfold Display.GetPixels at h
  cases hl : (List.range n).foldlM
      (fun bits i => do
        let toBits ← getPixelsRow d.Pixels d.pitch vy vx i
        writeAt bits i toBits)
      (List.replicate n 0) with
  | error e => simp [hl] at h
  | ok bits =>
    simp only [hl, ok_bind, pure_eq_ok, Except.ok.injEq] at h
    subst h
    refine ⟨rfl, ?_⟩
    exact foldlM_range_inv _
      (fun i bs => bs.length = n ∧
        ∀ r, r < i → ∃ g, getPixelsRow d.Pixels d.pitch vy vx r = .ok g ∧ bs[r]? = some g)
      n (List.replicate n 0) bits hl
      ⟨List.length_replicate _ _, fun r hr => absurd hr (Nat.not_lt_zero r)⟩
      (by
        intro i _ s t ⟨hlen, hdone⟩ hstep
        cases hg : getPixelsRow d.Pixels d.pitch vy vx i with
        | error e => simp [hg] at hstep
        | ok g =>
          simp only [hg, ok_bind] at hstep
          obtain ⟨hi, ht⟩ := writeAt_ok hstep
          subst ht
          refine ⟨by simp only [List.length_set]; exact hlen, ?_⟩
          intro r hr
          by_cases hri : r = i
          · subst hri
            exact ⟨g, hg, List.getElem?_set_self hi⟩
          · obtain ⟨g0, hg0, hs⟩ := hdone r (by omega)
            exact ⟨g0, hg0, by rw [List.getElem?_set_ne (by omega)]; exact hs⟩)

theorem drawStep_ok {memory : List Nat} {I i : Nat} {regs bits regs1 bits1 : List Nat}
    (h : drawStep memory I (regs, bits) i = .ok (regs1, bits1)) :
    ∃ b m vf, bits[i]? = some b ∧ memory[u16 (I + i)]? = some m ∧
      regs[15]? = some vf ∧ i < bits.length ∧
      regs1 = regs.set 15 ((b &&& m) ||| vf) ∧ bits1 = bits.set i (flipBits b m) := by
  unfold drawStep at h
  simp only at h
  cases hb : readAt bits i with
  | error e => simp [hb] at h
  | ok b =>
    simp only [hb, ok_bind] at h
    cases hm : readAt memory (u16 (I + i)) with
    | error e => simp [hm] at h
    | ok m =>
      simp only [hm, ok_bind] at h
      cases hv : readAt regs 15 with
      | error e => simp [hv] at h
      | ok vf =>
        simp only [hv, ok_bind] at h
        cases hw : writeAt regs 15 ((b &&& m) ||| vf) with
        | error e => simp [hw] at h
        | ok r1 =>
          simp only [hw, ok_bind] at h
          cases hw2 : writeAt bits i (flipBits b m) with
          | error e => simp [hw2] at h
          | ok b1 =>
            simp only [hw2, ok_bind, pure_eq_ok, Except.ok.injEq, Prod.mk.injEq] at h
            obtain ⟨_, e1⟩ := writeAt_ok hw
            obtain ⟨l2, e2⟩ := writeAt_ok hw2
            exact ⟨b, m, vf, readAt_ok hb, readAt_ok hm, readAt_ok hv, l2,
              h.1 ▸ e1, h.2 ▸ e2⟩

/-- What the row loop of `Draw` leaves in `bits` when it returns: row `r` holds
`flipBits g m` for the byte `g` it held before and the sprite byte
`m = memory[I + r]`. -/
theorem drawLoop_ok {memory : List Nat} {I n : Nat} {regs bits regs1 bits1 : List Nat}
    (h : (List.range n).foldlM (drawStep memory I) (regs, bits) = .ok (regs1, bits1)) :
    bits1.length = bits.length ∧
    ∀ r, r < n → ∃ g m, bits[r]? = some g ∧ memory[u16 (I + r)]? = some m ∧
      bits1[r]? = some (flipBits g m) := by
  have key := foldlM_range_inv (drawStep memory I)
    (fun i (st : List Nat × List Nat) => st.2.length = bits.length ∧
      (∀ r, i ≤ r → st.2[r]? = bits[r]?) ∧
      ∀ r, r < i → ∃ g m, bits[r]? = some g ∧ memory[u16 (I + r)]? = some m ∧
        st.2[r]? = some (flipBits g m))
    n (regs, bits) (regs1, bits1) h
    ⟨rfl, fun _ _ => rfl, fun r hr => absurd hr (Nat.not_lt_zero r)⟩
    (by
      intro i _ s t ⟨hlen, hrest, hdone⟩ hstep
      obtain ⟨sr, sb⟩ := s
      obtain ⟨tr, tb⟩ := t
      obtain ⟨b, m, vf, hb, hm, _, hi, _, hbits⟩ := drawStep_ok hstep
      simp only at hlen hrest hdone
      subst hbits
      refine ⟨by simp only [List.length_set]; exact hlen, ?_, ?_⟩
      · intro r hr
        simp only
        rw [List.getElem?_set_ne (by omega)]
        exact hrest r (by omega)
      · intro r hr
        simp only
        by_cases hri : r = i
        · subst hri
          exact ⟨b, m, (hrest r (Nat.le_refl r)) ▸ hb, hm, List.getElem?_set_self hi⟩
        · obtain ⟨g0, m0, h1, h2, h3⟩ := hdone r (by omega)
          exact ⟨g0, m0, h1, h2, by rw [List.getElem?_set_ne (by omega)]; exact h3⟩)
  exact ⟨key.1, key.2.2⟩

/-- What `Draw` leaves in the texture when it returns, for a pitch of at least
32 bytes. With `vx`, `vy` the origin registers read after VF was cleared, `g` the
byte `GetPixels` computed for row `r` and `m = memory[I + r]` the sprite byte,
the four bytes at `writePos texPitch vy vx r j` hold the pixel for bit `j`
(most significant first) of `flipBits g m`. -/
theorem Draw_ok {c c1 : Chip8} {X Y n : Nat} (h : c.Draw X Y n = .ok c1)
    (hp : 32 ≤ c.display.texPitch) :
    ∃ vx vy, (c.registers.set 0xF 0)[X]? = some vx ∧
      (c.registers.set 0xF 0)[Y]? = some vy ∧
      c1.display.texture.length = c.display.texture.length ∧
      ∀ r, r < n → ∃ g m,
        getPixelsRow c.display.texture c.display.texPitch vy vx r = .ok g ∧
        c.memory[u16 (c.I + r)]? = some m ∧
        ∀ j, j < 8 → ∀ k, k < 4 →
          c1.display.texture[writePos c.display.texPitch vy vx r j + k]?
            = some (pixelByte (flipBits g m) j) := by
  unfold Chip8.Draw at h
  cases hw : writeAt c.registers 0xF 0 with
  | error e => simp [hw] at h
  | ok regs =>
    simp only [hw, ok_bind] at h
    obtain ⟨_, hregs⟩ := writeAt_ok hw
    cases hpush : c.stack.push c.PC with
    | error e => simp [hpush] at h
    | ok stk =>
      simp only [hpush, ok_bind] at h
      cases hvy : readAt regs Y with
      | error e => simp [hvy] at h
      | ok vy =>
        simp only [hvy, ok_bind] at h
        cases hvx : readAt regs X with
        | error e => simp [hvx] at h
        | ok vx =>
          simp only [hvx, ok_bind] at h
          cases hg : c.display.Lock.GetPixels vy vx n with
          | error e => simp [hg] at h
          | ok d2 =>
            simp only [hg, ok_bind] at h
            cases hl : (List.range n).foldlM (drawStep c.memory c.I) (regs, d2.bits) with
            | error e => simp [hl] at h
            | ok st =>
              obtain ⟨regs1, bits1⟩ := st
              simp only [hl, ok_bind] at h
              cases hbb : Display.BitToByte { d2 with bits := bits1 } with
              | error e => simp [hbb] at h
              | ok d3 =>
                simp only [hbb, ok_bind] at h
                cases hpop : stk.pop with
                | error e => simp [hpop] at h
                | ok pr =>
                  simp only [hpop, ok_bind, pure_eq_ok, Except.ok.injEq] at h
                  subst h
                  obtain ⟨hd2, hlen2, hrows⟩ := GetPixels_ok hg
                  have hpitch : d2.pitch = c.display.texPitch := by rw [hd2]; rfl
                  have hpx : d2.Pixels = c.display.texture := by rw [hd2]; rfl
                  have hY : d2.bitPosY = vy := by rw [hd2]
                  have hX : d2.bitPosX = vx := by rw [hd2]
                  obtain ⟨hlen1, hflip⟩ := drawLoop_ok hl
                  obtain ⟨_, hlen3, hwr⟩ := BitToByte_ok hbb (by simp only [hpitch]; exact hp)
                  simp only [hpitch, hY, hX, hpx] at hwr hlen3
                  refine ⟨vx, vy, hregs ▸ readAt_ok hvx, hregs ▸ readAt_ok hvy, hlen3, ?_⟩
                  intro r hr
                  obtain ⟨g, hgr, hbit⟩ := hrows r hr
                  obtain ⟨g1, m, hg1, hm, hb1⟩ := hflip r hr
                  obtain ⟨b, hb, hbytes⟩ := hwr r (by omega)
                  have hgg : g1 = g := by
                    rw [hbit] at hg1; exact (Option.some.inj hg1).symm
                  have hbb1 : b = flipBits g m := by
                    rw [hb1, hgg] at hb; exact (Option.some.inj hb).symm
                  subst hbb1
                  refine ⟨g, m, ?_, hm, hbytes⟩
                  simpa [Display.Lock] using hgr

theorem DecodeExecute_draw (env : Env) (c : Chip8) (x y n : Nat)
    (hx : x < 16) (hy : y < 16) (hn : n < 16)
    (hIR : c.IR = 0xD000 + x * 256 + y * 16 + n) :
    c.DecodeExecute env = c.Draw x y n := by
  have h12 : c.IR >>> 12 = 13 := by
    rw [hIR]; simp only [Nat.shiftRight_eq_div_pow]; omega
  have hX : u8 (opX c.IR) = x := by
    rw [hIR]; simp only [opX, u8, u16, Nat.shiftLeft_eq, Nat.shiftRight_eq_div_pow]; omega
  have hY : u8 (opY c.IR) = y := by
    rw [hIR]; simp only [opY, u8, u16, Nat.shiftLeft_eq, Nat.shiftRight_eq_div_pow]; omega
  have hN : u8 (opN c.IR) = n := by
    rw [hIR]; simp only [opN, u8, u16, Nat.shiftLeft_eq, Nat.shiftRight_eq_div_pow]; omega
  simp [Chip8.DecodeExecute, h12, hX, hY, hN]

theorem getPixelsRow_ok {Pixels : List Nat} {pitch vy vx r g : Nat}
    (h : getPixelsRow Pixels pitch vy vx r = .ok g) :
    readPos pitch vy vx r 0 < Pixels.length := by
  unfold getPixelsRow at h
  rw [show List.range 8 = 0 :: [1, 2, 3, 4, 5, 6, 7] from rfl, List.foldlM_cons] at h
  cases hs : getPixelsStep Pixels pitch vy vx r 0 0 with
  | error e => simp [hs] at h
  | ok t =>
    unfold getPixelsStep at hs
    cases hr : readAt Pixels (readPos pitch vy vx r 0) with
    | error e => simp [hr] at hs
    | ok p =>
      have := readAt_ok hr
      exact (List.getElem?_eq_some.mp this).1

set_option maxRecDepth 100000 in
/-- C10 (counterexample): on the blank 64 by 32 texture (pitch 256), a draw of 5
rows at origin (60, 30) does not return (row 3 is sampled beyond the end of the
texture: index out of range) instead of wrapping to rows 0, 1, 2; and a draw of
the row `0xF0` at origin (62, 1) turns on pixels 62, 63 of row 0 (offsets 248
to 255) and pixels 0, 1 of row 1 (offsets 256 to 263), while pixels 62, 63 of
row 1 (offsets 504 to 511), where the claim places the first two bits, stay off. -/
theorem draw_does_not_wrap :
    returns ((machine (regs16 60 30) 0 0xD015).DecodeExecute quietEnv) = false ∧
    Except.map
      (fun c => ((c.display.texture.drop 248).take 16, (c.display.texture.drop 504).take 8))
      ((machine (regs16 62 1) 0 0xD011).DecodeExecute quietEnv)
      = Except.ok
        ([0, 0, 0, 0, 0, 0, 0, 0, 0, 0, 0, 0, 0, 0, 0, 0],
         [255, 255, 255, 255, 255, 255, 255, 255]) := by
  constructor
  · cases hret : (machine (regs16 60 30) 0 0xD015).DecodeExecute quietEnv with
    | error e => rfl
    | ok c1 =>
      exfalso
      rw [DecodeExecute_draw quietEnv _ 0 1 5 (by decide) (by decide) (by decide)
        (by decide)] at hret
      obtain ⟨vx, vy, hvx, hvy, _, hrows⟩ := Draw_ok hret (by decide)
      have hregs : (machine (regs16 60 30) 0 0xD015).registers = regs16 60 30 := rfl
      have htex : (machine (regs16 60 30) 0 0xD015).display.texture
          = List.replicate 8192 0xFF := rfl
      have hpitch : (machine (regs16 60 30) 0 0xD015).display.texPitch = 256 := rfl
      rw [hregs] at hvx hvy
      have hvx1 : vx = 60 := (Option.some.inj hvx).symm
      have hvy1 : vy = 30 := (Option.some.inj hvy).symm
      subst hvx1 hvy1
      obtain ⟨g, _, hg, _, _⟩ := hrows 3 (by decide)
      have hlt := getPixelsRow_ok hg
      rw [htex, hpitch, List.length_replicate] at hlt
      exact absurd hlt (by decide)
  · decide!

/-- C10 (amended): for every opcode `Dxyn` whose execution returns, on a texture
whose pitch is at least 32 bytes, with origin `(vx, vy)` the values of Vx and
Vy as `Draw` reads them (after it has cleared VF): for every sprite row
`r < n` there are the byte `g` that `GetPixels` computed for the row and the
sprite byte `m = memory[I + r]` such that, for every bit `b < 8` (most
significant first) of the row byte `flipBits g m`, the four texture bytes at
offset `((vy - 1) mod 256 + r) * pitch + 4 * (vx + b)` hold `0x00` when the bit
is 1 and `0xFF` when it is 0. Neither the column `vx + b` nor the row
`vy - 1 + r` is reduced modulo 64 or 32. -/
theorem draw_writes_rows_unwrapped (env : Env) (c c1 : Chip8) (x y n : Nat)
    (hx : x < 16) (hy : y < 16) (hn : n < 16)
    (hIR : c.IR = 0xD000 + x * 256 + y * 16 + n)
    (hret : c.DecodeExecute env = .ok c1) (hp : 32 ≤ c.display.texPitch) :
    ∃ vx vy, (c.registers.set 0xF 0)[x]? = some vx ∧
      (c.registers.set 0xF 0)[y]? = some vy ∧
      ∀ r, r < n → ∃ g m,
        getPixelsRow c.display.texture c.display.texPitch vy vx r = .ok g ∧
        c.memory[u16 (c.I + r)]? = some m ∧
        ∀ b, b < 8 → ∀ k, k < 4 →
          c1.display.texture[(sub8 vy 1 + r) * c.display.texPitch + 4 * (vx + b) + k]?
            = some (if (flipBits g m / 2 ^ (7 - b)) % 2 = 1 then 0x00 else 0xFF) := by
  have hdraw : c.Draw x y n = .ok c1 := by
    rw [← DecodeExecute_draw env c x y n hx hy hn hIR]; exact hret
  obtain ⟨vx, vy, hvx, hvy, _, hrows⟩ := Draw_ok hdraw hp
  refine ⟨vx, vy, hvx, hvy, ?_⟩
  intro r hr
  obtain ⟨g, m, hg, hm, hbytes⟩ := hrows r hr
  refine ⟨g, m, hg, hm, ?_⟩
  intro b hb k hk
  have hpos : (sub8 vy 1 + r) * c.display.texPitch + 4 * (vx + b) + k
      = writePos c.display.texPitch vy vx r b + k := by
    simp only [writePos, Nat.add_mul]; omega
  rw [hpos, hbytes b hb k hk, pixelByte_eq _ _ hb]

set_option maxRecDepth 100000 in
/-- Witness for `draw_writes_rows_unwrapped`: opcode `D012`, a draw of two rows
at origin (V0, V1) = (0, 1) on the blank texture, which returns. -/
theorem draw_writes_rows_unwrapped_witness :
    ∃ vx vy, ((machine (regs16 0 1) 0 0xD012).registers.set 0xF 0)[0]? = some vx ∧
      ((machine (regs16 0 1) 0 0xD012).registers.set 0xF 0)[1]? = some vy ∧
      ∀ r, r < 2 → ∃ g m,
        getPixelsRow (machine (regs16 0 1) 0 0xD012).display.texture
          (machine (regs16 0 1) 0 0xD012).display.texPitch vy vx r = .ok g ∧
        (machine (regs16 0 1) 0 0xD012).memory[u16
          ((machine (regs16 0 1) 0 0xD012).I + r)]? = some m ∧
        ∀ b, b < 8 → ∀ k, k < 4 →
          (returned ((machine (regs16 0 1) 0 0xD012).DecodeExecute quietEnv)
            (machine (regs16 0 1) 0 0xD012)).display.texture[(sub8 vy 1 + r) *
              (machine (regs16 0 1) 0 0xD012).display.texPitch + 4 * (vx + b) + k]?
            = some (if (flipBits g m / 2 ^ (7 - b)) % 2 = 1 then 0x00 else 0xFF) :=
  draw_writes_rows_unwrapped quietEnv (machine (regs16 0 1) 0 0xD012)
    (returned ((machine (regs16 0 1) 0 0xD012).DecodeExecute quietEnv)
      (machine (regs16 0 1) 0 0xD012))
    0 1 2 (by decide) (by decide) (by decide) (by decide)
    (eq_ok_returned _ _ (by decide!)) (by decide)

/-! ## Opcodes 8xy6 and 8xyE -/

/-- C20: for every machine state with sixteen registers and every opcode `8xy6`
with `x ≠ 0xF`, where `a = Vx` before execution, `DecodeExecute` returns the
state in which VF = `a mod 2`, Vx = `a / 2`, and nothing else differs: every
other register and every other component of the machine is as before. -/
theorem shift_right_sets_flag_to_low_bit (env : Env) (c : Chip8) (x y a : Nat)
    (hx : x < 16) (hy : y < 16) (hxF : x ≠ 15)
    (hIR : c.IR = 0x8006 + x * 256 + y * 16)
    (hlen : c.registers.length = 16) (ha : c.registers[x]? = some a) :
    ∃ c1, c.DecodeExecute env = .ok c1 ∧
      c1 = { c with registers := c1.registers } ∧
      c1.registers[15]? = some (a % 2) ∧ c1.registers[x]? = some (a / 2) ∧
      ∀ i, i ≠ x → i ≠ 15 → c1.registers[i]? = c.registers[i]? := by
  have h12 : c.IR >>> 12 = 8 := by
    rw [hIR]; simp only [Nat.shiftRight_eq_div_pow]; omega
  have hX : opX c.IR = x := by
    rw [hIR]; simp only [opX, u16, Nat.shiftLeft_eq, Nat.shiftRight_eq_div_pow]; omega
  have hN : opN c.IR = 6 := by
    rw [hIR]; simp only [opN, u16, Nat.shiftLeft_eq, Nat.shiftRight_eq_div_pow]; omega
  have hbit : u8 (a <<< 7) >>> 7 = a % 2 := by
    simp only [u8, Nat.shiftLeft_eq, Nat.shiftRight_eq_div_pow]; omega
  have hhalf : a >>> 1 = a / 2 := by
    simp only [Nat.shiftRight_eq_div_pow, Nat.pow_one]
  have ha1 : (c.registers.set 15 (a % 2))[x]? = some a := by
    rw [List.getElem?_set_ne (by omega)]; exact ha
  refine ⟨{ c with registers := (c.registers.set 15 (a % 2)).set x (a / 2) }, ?_, rfl, ?_, ?_, ?_⟩
  · simp [Chip8.DecodeExecute, h12, Chip8.execute8, hX, hN, readAt_of_getElem? ha,
      Chip8.setReg, writeAt, hlen, hbit, hhalf, readAt_of_getElem? ha1, hx]
  · show ((c.registers.set 15 (a % 2)).set x (a / 2))[15]? = some (a % 2)
    rw [List.getElem?_set_ne hxF]
    exact List.getElem?_set_self (by omega)
  · show ((c.registers.set 15 (a % 2)).set x (a / 2))[x]? = some (a / 2)
    exact List.getElem?_set_self (by simp only [List.length_set]; omega)
  · intro i hix hiF
    show ((c.registers.set 15 (a % 2)).set x (a / 2))[i]? = c.registers[i]?
    rw [List.getElem?_set_ne (Ne.symm hix)]
    exact List.getElem?_set_ne (Ne.symm hiF)

/-- Witness for `shift_right_sets_flag_to_low_bit`: opcode `8016` with V0 = 7. -/
theorem shift_right_sets_flag_to_low_bit_witness :
    ∃ c1, (machine (regs16 7 0) 0 0x8016).DecodeExecute quietEnv = .ok c1 ∧
      c1 = { machine (regs16 7 0) 0 0x8016 with registers := c1.registers } ∧
      c1.registers[15]? = some (7 % 2) ∧ c1.registers[0]? = some (7 / 2) ∧
      ∀ i, i ≠ 0 → i ≠ 15 → c1.registers[i]? = (machine (regs16 7 0) 0 0x8016).registers[i]? :=
  shift_right_sets_flag_to_low_bit quietEnv (machine (regs16 7 0) 0 0x8016) 0 1 7
    (by decide) (by decide) (by decide) (by decide) (by decide) (by decide)

/-- C19 (defect in the code): opcode `801E` with V0 = `0x81` and VF = 0. The
claim asks for VF = 1 and V0 = 2; after `DecodeExecute` the registers are
unchanged, because the shift-left arm is `case 0x8`, not `case 0xE`. The same
registers under opcode `8018` do become V0 = 2, VF = 1. -/
theorem shift_left_is_decoded_at_8_not_E :
    Except.map Chip8.registers
      (Chip8.DecodeExecute quietEnv (machine (regs16 0x81 0) 0 0x801E))
      = Except.ok (regs16 0x81 0) ∧
    Except.map Chip8.registers
      (Chip8.DecodeExecute quietEnv (machine (regs16 0x81 0) 0 0x8018))
      = Except.ok [2, 0, 0, 0, 0, 0, 0, 0, 0, 0, 0, 0, 0, 0, 0, 1] := by
  decide

/-! ## Call and return -/

/-- C18: for every machine state whose stack has a free slot above the pointer
and every 12-bit address `nnn`, `DecodeExecute` on `2nnn` returns with
`PC = nnn`, the old `PC` stored in the slot above the old pointer and the
pointer raised by one; `DecodeExecute` on `00EE` right afterwards returns with
`PC` and the stack pointer as they were before the `2nnn`. -/
theorem call_then_return_restores_pc (env : Env) (c : Chip8) (nnn : Nat)
    (hn : nnn < 4096) (hIR : c.IR = 0x2000 + nnn)
    (hlo : -1 ≤ c.stack.pointer) (hroom : c.stack.pointer + 1 < c.stack.stack.length) :
    ∃ c1 c2, c.DecodeExecute env = .ok c1 ∧ c1.PC = nnn ∧
      c1.stack.pointer = c.stack.pointer + 1 ∧
      c1.stack.stack[(c.stack.pointer + 1).toNat]? = some c.PC ∧
      Chip8.DecodeExecute env { c1 with IR := 0x00EE } = .ok c2 ∧
      c2.PC = c.PC ∧ c2.stack.pointer = c.stack.pointer := by
  have h12 : c.IR >>> 12 = 2 := by
    rw [hIR]; simp only [Nat.shiftRight_eq_div_pow]; omega
  have hnnn : opNNN c.IR = nnn := by
    rw [hIR]; simp only [opNNN, u16, Nat.shiftLeft_eq, Nat.shiftRight_eq_div_pow]; omega
  have hpush := push_ok c.stack c.PC (by omega) hroom
  have hin : (c.stack.pointer + 1).toNat < c.stack.stack.length := by omega
  have hpop := pop_ok
    { stack := c.stack.stack.set (c.stack.pointer + 1).toNat c.PC,
      pointer := c.stack.pointer + 1 } c.PC (by simp only; omega)
    (List.getElem?_set_self hin)
  have h1 : c.DecodeExecute env = .ok
      { c with
        stack := { stack := c.stack.stack.set (c.stack.pointer + 1).toNat c.PC,
                   pointer := c.stack.pointer + 1 },
        PC := nnn } := by
    simp [Chip8.DecodeExecute, h12, hpush, hnnn]
  have h2 : Chip8.DecodeExecute env
      { c with
        stack := { stack := c.stack.stack.set (c.stack.pointer + 1).toNat c.PC,
                   pointer := c.stack.pointer + 1 },
        PC := nnn, IR := 0x00EE } = .ok
      { c with
        stack := { stack := c.stack.stack.set (c.stack.pointer + 1).toNat c.PC,
                   pointer := c.stack.pointer + 1 - 1 },
        PC := c.PC, IR := 0x00EE } := by
    simp [Chip8.DecodeExecute, hpop]
  exact ⟨_, _, h1, rfl, rfl, List.getElem?_set_self hin, h2, rfl, by simp only; omega⟩

/-- Witness for `call_then_return_restores_pc`: opcode `2300` as the first call
of a program. -/
theorem call_then_return_restores_pc_witness :
    ∃ c1 c2, (machine (regs16 0 0) 0 0x2300).DecodeExecute quietEnv = .ok c1 ∧
      c1.PC = 0x300 ∧
      c1.stack.pointer = (machine (regs16 0 0) 0 0x2300).stack.pointer + 1 ∧
      c1.stack.stack[((machine (regs16 0 0) 0 0x2300).stack.pointer + 1).toNat]?
        = some (machine (regs16 0 0) 0 0x2300).PC ∧
      Chip8.DecodeExecute quietEnv { c1 with IR := 0x00EE } = .ok c2 ∧
      c2.PC = (machine (regs16 0 0) 0 0x2300).PC ∧
      c2.stack.pointer = (machine (regs16 0 0) 0 0x2300).stack.pointer :=
  call_then_return_restores_pc quietEnv (machine (regs16 0 0) 0 0x2300) 0x300
    (by decide) (by decide) (by decide) (by decide)

/-! ## Fetch -/

theorem shl8_xor_eq_add (hi lo : Nat) (hlo : lo < 256) :
    (hi <<< 8) ^^^ lo = hi * 256 + lo := by
  have h1 : (hi <<< 8) ^^^ lo = (hi <<< 8) ||| lo := by
    apply Nat.eq_of_testBit_eq
    intro i
    rw [Nat.testBit_xor, Nat.testBit_or, Nat.testBit_shiftLeft]
    by_cases h : 8 ≤ i
    · have h256 : lo < 2 ^ i :=
        lt_of_lt_of_le hlo (Nat.pow_le_pow_right (by decide) h : 2 ^ 8 ≤ 2 ^ i)
      simp [Nat.testBit_lt_two_pow h256]
    · simp [h]
  have h2 : 2 ^ 8 * hi + lo = 2 ^ 8 * hi ||| lo := Nat.mul_add_lt_is_or hlo hi
  rw [h1, Nat.shiftLeft_eq, Nat.mul_comm hi (2 ^ 8), ← h2]

/-- C15: for every machine state with a 4096-byte memory of byte values and
`PC + 1 < 4096`, `Fetch` returns the state in which
`IR = memory[PC] * 256 + memory[PC + 1]` and `PC` is `PC + 2`, every other
component (memory, registers, `I`, stack, display, timers) being as before. -/
theorem fetch_combines_two_bytes (c : Chip8) (hlen : c.memory.length = 4096)
    (hbytes : ∀ v ∈ c.memory, v < 256) (hpc : c.PC + 1 < 4096) :
    ∃ hi lo, c.memory[c.PC]? = some hi ∧ c.memory[c.PC + 1]? = some lo ∧
      c.Fetch = .ok { c with IR := hi * 256 + lo, PC := c.PC + 2 } := by
  have h0 : c.PC < c.memory.length := by omega
  have h1 : c.PC + 1 < c.memory.length := by omega
  have hhi : c.memory[c.PC]? = some (c.memory[c.PC]) := List.getElem?_eq_getElem h0
  have hlo : c.memory[c.PC + 1]? = some (c.memory[c.PC + 1]) := List.getElem?_eq_getElem h1
  have bhi : c.memory[c.PC] < 256 := hbytes _ (List.getElem_mem h0)
  have blo : c.memory[c.PC + 1] < 256 := hbytes _ (List.getElem_mem h1)
  refine ⟨_, _, hhi, hlo, ?_⟩
  have e1 : u16 (c.PC + 1) = c.PC + 1 := by simp only [u16]; omega
  have e2 : u16 (c.PC + 2) = c.PC + 2 := by simp only [u16]; omega
  have e3 : u16 (c.memory[c.PC] <<< 8) = c.memory[c.PC] <<< 8 := by
    simp only [u16, Nat.shiftLeft_eq]; omega
  simp only [Chip8.Fetch, e1, e2, e3, readAt_of_getElem? hhi, readAt_of_getElem? hlo,
    ok_bind, pure_eq_ok, shl8_xor_eq_add _ _ blo]

theorem fonts_bytes : ∀ v ∈ fonts, v < 256 := by decide

theorem machineAtPC_memory_bytes (pc : Nat) : ∀ v ∈ (machineAtPC pc).memory, v < 256 := by
  intro v hv
  have hm : (machineAtPC pc).memory = fonts ++ List.replicate 4016 0 := rfl
  rw [hm, List.mem_append] at hv
  rcases hv with h | h
  · exact fonts_bytes v h
  · rw [List.mem_replicate] at h
    omega

theorem machineAtPC_memory_length (pc : Nat) : (machineAtPC pc).memory.length = 4096 := by
  have hm : (machineAtPC pc).memory = fonts ++ List.replicate 4016 0 := rfl
  rw [hm, List.length_append, List.length_replicate]
  rfl

/-- Witness for `fetch_combines_two_bytes`: a fetch at `PC = 0x202` from the
memory of a freshly built machine. -/
theorem fetch_combines_two_bytes_witness :
    ∃ hi lo, (machineAtPC 0x202).memory[(machineAtPC 0x202).PC]? = some hi ∧
      (machineAtPC 0x202).memory[(machineAtPC 0x202).PC + 1]? = some lo ∧
      (machineAtPC 0x202).Fetch = .ok
        { machineAtPC 0x202 with
          IR := hi * 256 + lo, PC := (machineAtPC 0x202).PC + 2 } :=
  fetch_combines_two_bytes (machineAtPC 0x202)
    (machineAtPC_memory_length _) (machineAtPC_memory_bytes _) (by decide)

/-- When `Fetch` returns and when it stops, for a memory of 4096 bytes. -/
theorem Fetch_outcome (c : Chip8) (hlen : c.memory.length = 4096) (hpc : c.PC < 65536) :
    (c.PC < 4095 → returns c.Fetch = true) ∧
    (4095 ≤ c.PC → c.Fetch = .error .indexOutOfRange) := by
  constructor
  · intro h
    have h0 : c.PC < c.memory.length := by omega
    have h1 : u16 (c.PC + 1) < c.memory.length := by simp only [u16]; omega
    simp [Chip8.Fetch, readAt, List.getElem?_eq_getElem h0, List.getElem?_eq_getElem h1,
      returns]
  · intro h
    by_cases h0 : c.PC < c.memory.length
    · have h1 : c.memory.length ≤ u16 (c.PC + 1) := by simp only [u16]; omega
      simp [Chip8.Fetch, readAt, List.getElem?_eq_getElem h0, List.getElem?_eq_none h1]
    · have h2 : c.memory.length ≤ c.PC := by omega
      simp [Chip8.Fetch, readAt, List.getElem?_eq_none h2]

theorem Fetch_ok_PC {c c1 : Chip8} (h : c.Fetch = .ok c1) : c1.PC = u16 (c.PC + 2) := by
  simp only [Chip8.Fetch] at h
  cases h0 : readAt c.memory c.PC with
  | error e => simp [h0] at h
  | ok hi =>
    cases h1 : readAt c.memory (u16 (c.PC + 1)) with
    | error e => simp [h0, h1] at h
    | ok lo =>
      simp only [h0, h1, ok_bind, pure_eq_ok, Except.ok.injEq] at h
      rw [← h]

/-- C16 (counterexample): with `PC = 4094` on a machine with a 4096-byte memory,
`Fetch` returns normally (it reads the bytes at 4094 and 4095) and leaves
`PC = 4096`, although the claim asks for a fault at every `PC ≥ 4094`. -/
theorem fetch_at_4094_returns :
    returns (machineAtPC 4094).Fetch = true ∧
    Except.map Chip8.PC (machineAtPC 4094).Fetch = Except.ok 4096 := by
  have h := (Fetch_outcome (machineAtPC 4094)
    (machineAtPC_memory_length _) (by decide)).1 (by decide)
  refine ⟨h, ?_⟩
  cases hf : (machineAtPC 4094).Fetch with
  | error e => rw [hf] at h; simp [returns] at h
  | ok c1 =>
    have hpc := Fetch_ok_PC hf
    show Except.ok c1.PC = Except.ok 4096
    rw [hpc]
    rfl

/-- C16 (amended): for every 16-bit `PC` value and a memory of 4096 bytes,
`Fetch` stops with the index-out-of-range fault if and only if `PC ≥ 4095`; for
`PC < 4095`, so also at `PC = 4094`, it returns normally. -/
theorem fetch_faults_iff_pc_ge_4095 (c : Chip8) (hlen : c.memory.length = 4096)
    (hpc : c.PC < 65536) :
    (c.Fetch = .error .indexOutOfRange ↔ 4095 ≤ c.PC) ∧
    (c.PC < 4095 → ∃ c1, c.Fetch = .ok c1) := by
  obtain ⟨hok, herr⟩ := Fetch_outcome c hlen hpc
  refine ⟨⟨?_, herr⟩, ?_⟩
  · intro hf
    by_contra hlt
    have := hok (by omega)
    rw [hf] at this
    simp [returns] at this
  · intro hlt
    have := hok hlt
    cases hf : c.Fetch with
    | error e => rw [hf] at this; simp [returns] at this
    | ok c1 => exact ⟨c1, rfl⟩

/-- Witness for `fetch_faults_iff_pc_ge_4095`: the machine with `PC = 4095`. -/
theorem fetch_faults_iff_pc_ge_4095_witness :
    ((machineAtPC 4095).Fetch = .error .indexOutOfRange ↔
      4095 ≤ (machineAtPC 4095).PC) ∧
    ((machineAtPC 4095).PC < 4095 →
      ∃ c1, (machineAtPC 4095).Fetch = .ok c1) :=
  fetch_faults_iff_pc_ge_4095 (machineAtPC 4095)
    (machineAtPC_memory_length _) (by decide)

/-! ## Timers -/

/-- C12 (defect in the code): a timer armed with 30 at tick 1000. Read at once
it gives 30; read 500 ms later it gives 1 (29 ticks of 17 ms have passed); read
600 ms later, when 35 ticks have passed, it gives 251, that is 30 - 35 modulo
256, where the claim asks for 0: `Run` subtracts on `byte` values without a
floor. -/
theorem timer_read_wraps_below_zero :
    ((InitTimer.Start 1000 30).GetValue 1000).1 = 30 ∧
    ((InitTimer.Start 1000 30).GetValue 1500).1 = 1 ∧
    ((InitTimer.Start 1000 30).GetValue 1600).1 = 251 := by
  decide

/-- C13 (defect in the code): a timer armed with 30 at tick 1000. Two reads at
the same instant 1170 return 20 and then 10; and a read at 1340 returns 10 when
it is the first read but 0 when a read at 1170 came before it: `Run` stores the
decayed value back without moving `ticksStart`, so every read subtracts the
whole elapsed time again. -/
theorem timer_read_is_not_pure :
    ((InitTimer.Start 1000 30).readings [1170, 1170]).1 = [20, 10] ∧
    ((InitTimer.Start 1000 30).readings [1340]).1 = [10] ∧
    ((InitTimer.Start 1000 30).readings [1170, 1340]).1 = [20, 0] := by
  decide

theorem readings_of_zero (nows : List Nat) : ∀ t : Timer, t.value = 0 →
    t.readings nows = (List.replicate nows.length 0, t) := by
  induction nows with
  | nil => intro t _; rfl
  | cons now rest ih =>
    intro t h0
    have hrun : t.Run now = t := by simp [Timer.Run, h0]
    have hget : t.GetValue now = (0, t) := by
      simp only [Timer.GetValue, hrun, h0]
    simp only [Timer.readings, hget, ih t h0, List.length_cons, List.replicate_succ]

/-- C14: for every timer and every clock reading at which `GetValue` returns 0,
every later `GetValue` on that timer returns 0 as well, whatever the later
clock readings are, as long as no `Start` intervenes. -/
theorem timer_stays_zero (t : Timer) (now : Nat) (nows : List Nat)
    (h0 : (t.GetValue now).1 = 0) :
    ((t.GetValue now).2.readings nows).1 = List.replicate nows.length 0 := by
  have hv : (t.GetValue now).2.value = 0 := h0
  rw [readings_of_zero nows _ hv]

/-- Witness for `timer_stays_zero`: a timer armed with 30 at tick 1000 and read
at tick 1510, when exactly 30 ticks have passed. -/
theorem timer_stays_zero_witness :
    (((InitTimer.Start 1000 30).GetValue 1510).2.readings [1511, 2000, 99999]).1
      = List.replicate [1511, 2000, 99999].length 0 :=
  timer_stays_zero (InitTimer.Start 1000 30) 1510 [1511, 2000, 99999] (by decide)

/-! ## Clear -/

/-- Invariant rule for a `for i := 0; i < n; i++` loop whose every iteration
returns: the loop returns and the invariant holds at the end. -/
theorem foldlM_range_total {σ : Type} (f : σ → Nat → Except Fault σ)
    (P : Nat → σ → Prop) : ∀ (n : Nat) (s0 : σ), P 0 s0 →
    (∀ i, i < n → ∀ s, P i s → ∃ t, f s i = .ok t ∧ P (i + 1) t) →
    ∃ s1, (List.range n).foldlM f s0 = .ok s1 ∧ P n s1 := by
  intro n
  induction n with
  | zero =>
    intro s0 h0 _
    exact ⟨s0, rfl, h0⟩
  | succ n ih =>
    intro s0 h0 hstep
    obtain ⟨s, hs, hP⟩ := ih s0 h0 (fun i hi => hstep i (Nat.lt_succ_of_lt hi))
    obtain ⟨t, ht, hQ⟩ := hstep n (Nat.lt_succ_self n) s hP
    refine ⟨t, ?_, hQ⟩
    rw [List.range_succ, List.foldlM_append, hs]
    simp only [ok_bind, List.foldlM_cons, List.foldlM_nil, ht, pure_eq_ok]

theorem clearStep_ok (px : List Nat) (k : Nat) (h : 4 * k + 3 < px.length) :
    clearStep px k = .ok
      ((((px.set (4 * k) 0xFF).set (4 * k + 1) 0xFF).set (4 * k + 2) 0xFF).set
        (4 * k + 3) 0xFF) := by
  have h0 : 4 * k < px.length := by omega
  have h1 : 4 * k + 1 < px.length := by omega
  have h2 : 4 * k + 2 < px.length := by omega
  simp [clearStep, writeAt, h, h0, h1, h2]

/-- The loop of `Clear` on a buffer whose length is a multiple of 4: it returns
and every byte is `0xFF` afterwards. -/
theorem clearLoop_ok (px : List Nat) (m : Nat) (hlen : px.length = 4 * m) :
    (List.range m).foldlM clearStep px = .ok (List.replicate (4 * m) 0xFF) := by
  obtain ⟨px1, hrun, hl, hall⟩ := foldlM_range_total clearStep
    (fun k p => p.length = px.length ∧ ∀ q, q < 4 * k → p[q]? = some 0xFF)
    m px ⟨rfl, fun q hq => absurd hq (by omega)⟩
    (by
      intro k hk p ⟨hpl, hdone⟩
      refine ⟨_, clearStep_ok p k (by omega), by simp only [List.length_set]; exact hpl, ?_⟩
      intro q hq
      simp only [List.getElem?_set, List.length_set]
      by_cases hq0 : q < 4 * k
      · have := hdone q hq0
        split_ifs <;> first | rfl | exact this | omega
      · split_ifs <;> first | rfl | omega)
  rw [hrun]
  congr 1
  apply List.ext_getElem?
  intro q
  by_cases hq : q < 4 * m
  · rw [hall q hq, List.getElem?_replicate]
    simp [hq]
  · rw [List.getElem?_eq_none (by omega), List.getElem?_eq_none (by simp; omega)]

/-- `Clear` on a texture of `texPitch * H` bytes with `texPitch` a multiple of 4. -/
theorem Clear_ok (d : Display) (hlen : d.texture.length = d.texPitch * d.H)
    (h4 : 4 ∣ d.texPitch) :
    d.Clear = .ok
      { d with texture := List.replicate (d.texPitch * d.H) 0xFF,
               Pixels := [], bits := [], pitch := 0 } := by
  obtain ⟨w, hw⟩ := h4
  have h4m : d.texPitch * d.H = 4 * (w * d.H) := by
    rw [hw, Nat.mul_assoc]
  have hm : (4 * (w * d.H) + 3) / 4 = w * d.H := by omega
  have hloop := clearLoop_ok d.texture (w * d.H) (by rw [hlen, h4m])
  simp only [Display.Clear, Display.Lock, Display.UnLock, h4m, hm, hloop, ok_bind,
    pure_eq_ok]

/-- C11: for every prior content of the texture (length `pitch * 32` with the
pitch a multiple of 4), `Display.Clear`, and so `DecodeExecute` on opcode
`00E0`, returns, changes nothing but the display, and leaves every byte of
the texture at `0xFF`; on such a byte the pixel switch of `GetPixels` only
shifts `toBits` left, that is, it decodes a 0 bit. -/
theorem clear_turns_every_pixel_off (env : Env) (c : Chip8) (hIR : c.IR = 0x00E0)
    (hH : c.display.H = 32)
    (hlen : c.display.texture.length = c.display.texPitch * 32)
    (h4 : 4 ∣ c.display.texPitch) :
    ∃ d1, c.display.Clear = .ok d1 ∧ c.DecodeExecute env = .ok { c with display := d1 } ∧
      d1.texture = List.replicate (c.display.texPitch * 32) 0xFF ∧
      (∀ q, q < c.display.texPitch * 32 → d1.texture[q]? = some 0xFF) ∧
      ∀ pitch Vy Vx i toBits j, readPos pitch Vy Vx i j < c.display.texPitch * 32 →
        getPixelsStep d1.texture pitch Vy Vx i toBits j = .ok (u8 (toBits <<< 1)) := by
  have hclear := Clear_ok c.display (by rw [hlen, hH]) h4
  rw [hH] at hclear
  have hall : ∀ q, q < c.display.texPitch * 32 →
      (List.replicate (c.display.texPitch * 32) 0xFF)[q]? = some 0xFF := by
    intro q hq
    rw [List.getElem?_replicate]
    simp [hq]
  refine ⟨_, hclear, ?_, rfl, hall, ?_⟩
  · simp [Chip8.DecodeExecute, hIR, hclear]
  · intro pitch Vy Vx i toBits j hpos
    simp [getPixelsStep, readAt, hall _ hpos]

/-- Witness for `clear_turns_every_pixel_off`: opcode `00E0` on the machine whose
64 by 32 texture of pitch 256 has every pixel on. -/
theorem clear_turns_every_pixel_off_witness :
    ∃ d1, (machineLit (regs16 0 0) 0x00E0).display.Clear = .ok d1 ∧
      (machineLit (regs16 0 0) 0x00E0).DecodeExecute quietEnv
        = .ok { machineLit (regs16 0 0) 0x00E0 with display := d1 } ∧
      d1.texture = List.replicate ((machineLit (regs16 0 0) 0x00E0).display.texPitch * 32) 0xFF ∧
      (∀ q, q < (machineLit (regs16 0 0) 0x00E0).display.texPitch * 32 →
        d1.texture[q]? = some 0xFF) ∧
      ∀ pitch Vy Vx i toBits j,
        readPos pitch Vy Vx i j < (machineLit (regs16 0 0) 0x00E0).display.texPitch * 32 →
        getPixelsStep d1.texture pitch Vy Vx i toBits j = .ok (u8 (toBits <<< 1)) :=
  clear_turns_every_pixel_off quietEnv (machineLit (regs16 0 0) 0x00E0) (by decide)
    (by decide) (List.length_replicate 8192 0x00) ⟨64, rfl⟩

/-! ## Opcodes outside the instruction table -/

theorem executeF_noop (env : Env) (c : Chip8) (hlt : opY c.IR < 16)
    (h7 : opY c.IR ≠ 0x07) (hA : opY c.IR ≠ 0x0A) : c.executeF env = .ok c := by
  have h15 : opY c.IR ≠ 0x15 := by omega
  have h18 : opY c.IR ≠ 0x18 := by omega
  have h1E : opY c.IR ≠ 0x1E := by omega
  have h29 : opY c.IR ≠ 0x29 := by omega
  have h33 : opY c.IR ≠ 0x33 := by omega
  have h55 : opY c.IR ≠ 0x55 := by omega
  have h65 : opY c.IR ≠ 0x65 := by omega
  simp only [Chip8.executeF, h7, hA, h15, h18, h1E, h29, h33, h55, h65, if_false, pure_eq_ok]

theorem opY_lt (ir : Nat) : opY ir < 16 := by
  simp only [opY, u16, Nat.shiftLeft_eq, Nat.shiftRight_eq_div_pow]; omega

/-- C17 (counterexample): three opcodes outside the instruction table that are
not no-ops. `5011` with V0 = V1 advances `PC` from `0x202` to `0x204`; `8018`
with V0 = `0x81` shifts V0 to 2 and sets VF to 1; `F070` with V0 = 5 overwrites
V0 with the delay-timer value 0. -/
theorem unlisted_opcodes_that_execute :
    Except.map Chip8.PC ((machine (regs16 0 0) 0 0x5011).DecodeExecute quietEnv)
      = Except.ok 0x204 ∧
    Except.map Chip8.registers ((machine (regs16 0x81 0) 0 0x8018).DecodeExecute quietEnv)
      = Except.ok [2, 0, 0, 0, 0, 0, 0, 0, 0, 0, 0, 0, 0, 0, 0, 1] ∧
    Except.map Chip8.registers ((machine (regs16 5 0) 0 0xF070).DecodeExecute quietEnv)
      = Except.ok (regs16 0 0) := by
  decide

/-- C17 (amended): for every 16-bit `IR` of the form `0nnn` other than
`00E0`/`00EE`, `8xyk` with `k` in 9..D or F, `Exkk` other than `Ex9E`/`ExA1`, or
`Fxkk` with `kk` outside the table and the high nibble of `kk` neither 7 nor A,
and every state, `DecodeExecute` returns the state unchanged. `5xyk` and `9xyk`
are executed like `5xy0` and `9xy0` whatever `k` is: on a state with sixteen
registers `PC` advances by 2 when Vx = Vy, respectively Vx ≠ Vy, and nothing
else changes. -/
theorem unlisted_opcodes_are_noops (env : Env) (c : Chip8) :
    (((c.IR / 4096 = 0 ∧ c.IR ≠ 0x00E0 ∧ c.IR ≠ 0x00EE) ∨
      (c.IR / 4096 = 8 ∧ 9 ≤ c.IR % 16 ∧ c.IR % 16 ≠ 0xE) ∨
      (c.IR / 4096 = 0xE ∧ c.IR % 256 ≠ 0x9E ∧ c.IR % 256 ≠ 0xA1) ∨
      (c.IR / 4096 = 0xF ∧
        c.IR % 256 ∉ [0x07, 0x0A, 0x15, 0x18, 0x1E, 0x29, 0x33, 0x55, 0x65] ∧
        c.IR / 16 % 16 ≠ 7 ∧ c.IR / 16 % 16 ≠ 0xA)) →
      c.DecodeExecute env = .ok c) ∧
    (c.IR / 4096 = 5 → c.registers.length = 16 →
      ∃ a b, c.registers[c.IR / 256 % 16]? = some a ∧
        c.registers[c.IR / 16 % 16]? = some b ∧
        c.DecodeExecute env = .ok (if a = b then { c with PC := u16 (c.PC + 2) } else c)) ∧
    (c.IR / 4096 = 9 → c.registers.length = 16 →
      ∃ a b, c.registers[c.IR / 256 % 16]? = some a ∧
        c.registers[c.IR / 16 % 16]? = some b ∧
        c.DecodeExecute env = .ok (if a ≠ b then { c with PC := u16 (c.PC + 2) } else c)) := by
  have h12 : c.IR >>> 12 = c.IR / 4096 := by
    simp only [Nat.shiftRight_eq_div_pow, Nat.reducePow]
  have hX : opX c.IR = c.IR / 256 % 16 := by
    simp only [opX, u16, Nat.shiftLeft_eq, Nat.shiftRight_eq_div_pow]; omega
  have hY : opY c.IR = c.IR / 16 % 16 := by
    simp only [opY, u16, Nat.shiftLeft_eq, Nat.shiftRight_eq_div_pow]; omega
  have hN : opN c.IR = c.IR % 16 := by
    simp only [opN, u16, Nat.shiftLeft_eq, Nat.shiftRight_eq_div_pow]; omega
  have hNN : opNN c.IR = c.IR % 256 := by
    simp only [opNN, u16, Nat.shiftLeft_eq, Nat.shiftRight_eq_div_pow]; omega
  refine ⟨?_, ?_, ?_⟩
  · rintro (⟨h0, hE0, hEE⟩ | ⟨h8, hk9, hkE⟩ | ⟨hE, h9E, hA1⟩ | ⟨hF, _, hy7, hyA⟩)
    · simp [Chip8.DecodeExecute, h12, h0, hE0, hEE]
    · have e1 : opN c.IR ≠ 0 := by omega
      have e2 : opN c.IR ≠ 1 := by omega
      have e3 : opN c.IR ≠ 2 := by omega
      have e4 : opN c.IR ≠ 3 := by omega
      have e5 : opN c.IR ≠ 4 := by omega
      have e6 : opN c.IR ≠ 5 := by omega
      have e7 : opN c.IR ≠ 6 := by omega
      have e8 : opN c.IR ≠ 7 := by omega
      have e9 : opN c.IR ≠ 8 := by omega
      simp [Chip8.DecodeExecute, h12, h8, Chip8.execute8, e1, e2, e3, e4, e5, e6, e7, e8, e9]
    · have e1 : opNN c.IR ≠ 0x9E := by omega
      have e2 : opNN c.IR ≠ 0xA1 := by omega
      simp [Chip8.DecodeExecute, h12, hE, Chip8.executeE, e1, e2]
    · have hnoop := executeF_noop env c (opY_lt _) (by omega) (by omega)
      simp [Chip8.DecodeExecute, h12, hF, hnoop]
  · intro h5 hlen
    have hx : c.IR / 256 % 16 < c.registers.length := by omega
    have hy : c.IR / 16 % 16 < c.registers.length := by omega
    refine ⟨_, _, List.getElem?_eq_getElem hx, List.getElem?_eq_getElem hy, ?_⟩
    simp only [Chip8.DecodeExecute, h12, h5, hX, hY, readAt, List.getElem?_eq_getElem hx,
      List.getElem?_eq_getElem hy]
    simp
    split_ifs <;> rfl
  · intro h9 hlen
    have hx : c.IR / 256 % 16 < c.registers.length := by omega
    have hy : c.IR / 16 % 16 < c.registers.length := by omega
    refine ⟨_, _, List.getElem?_eq_getElem hx, List.getElem?_eq_getElem hy, ?_⟩
    simp only [Chip8.DecodeExecute, h12, h9, hX, hY, readAt, List.getElem?_eq_getElem hx,
      List.getElem?_eq_getElem hy]
    simp
    split_ifs <;> rfl

/-- Witness for `unlisted_opcodes_are_noops`: the opcodes `0123`, `801F`, `E000`
and `F0FF` leave the machine unchanged, and `5011` with V0 = V1 = 0 skips. -/
theorem unlisted_opcodes_are_noops_witness :
    (machine (regs16 0 0) 0 0x0123).DecodeExecute quietEnv
      = .ok (machine (regs16 0 0) 0 0x0123) ∧
    (machine (regs16 0 0) 0 0x801F).DecodeExecute quietEnv
      = .ok (machine (regs16 0 0) 0 0x801F) ∧
    (machine (regs16 0 0) 0 0xE000).DecodeExecute quietEnv
      = .ok (machine (regs16 0 0) 0 0xE000) ∧
    (machine (regs16 0 0) 0 0xF0FF).DecodeExecute quietEnv
      = .ok (machine (regs16 0 0) 0 0xF0FF) ∧
    ∃ a b, (machine (regs16 0 0) 0 0x5011).registers[
          (machine (regs16 0 0) 0 0x5011).IR / 256 % 16]? = some a ∧
        (machine (regs16 0 0) 0 0x5011).registers[
          (machine (regs16 0 0) 0 0x5011).IR / 16 % 16]? = some b ∧
        (machine (regs16 0 0) 0 0x5011).DecodeExecute quietEnv = .ok
          (if a = b then
            { machine (regs16 0 0) 0 0x5011 with
              PC := u16 ((machine (regs16 0 0) 0 0x5011).PC + 2) }
          else machine (regs16 0 0) 0 0x5011) :=
  ⟨(unlisted_opcodes_are_noops quietEnv (machine (regs16 0 0) 0 0x0123)).1
      (Or.inl ⟨by decide, by decide, by decide⟩),
   (unlisted_opcodes_are_noops quietEnv (machine (regs16 0 0) 0 0x801F)).1
      (Or.inr (Or.inl ⟨by decide, by decide, by decide⟩)),
   (unlisted_opcodes_are_noops quietEnv (machine (regs16 0 0) 0 0xE000)).1
      (Or.inr (Or.inr (Or.inl ⟨by decide, by decide, by decide⟩))),
   (unlisted_opcodes_are_noops quietEnv (machine (regs16 0 0) 0 0xF0FF)).1
      (Or.inr (Or.inr (Or.inr ⟨by decide, by decide, by decide, by decide⟩))),
   (unlisted_opcodes_are_noops quietEnv (machine (regs16 0 0) 0 0x5011)).2.1
      (by decide) (by decide)⟩

/-! ## Opcode Cxnn -/

/-- C21 (defect in the code): opcode `C0FF` when the random source delivers
`0xAB`. The claim asks for V0 = `0xAB AND 0xFF` = `0xAB`; after `DecodeExecute`
V0 = `0x0B`, because the mask is `byte(IR << 8 >> 12)`, the high nibble of `nn`
(here `0xF`), not the low byte `nn`. -/
theorem random_mask_is_high_nibble :
    Except.map Chip8.registers
      ((machine (regs16 0 0) 0 0xC0FF).DecodeExecute (envWithRand 0xAB))
      = Except.ok (regs16 0x0B 0) := by
  decide

/-! ## The F family -/

/-- C24: for every `IR` with top nibble `0xF` and every state, what
`DecodeExecute` does depends on the y nibble (bits 4-7) alone. When it is
neither 7 nor `0xA` the state is returned unchanged, whatever the low byte is
(so the arms `0x15`, `0x18`, `0x1E`, `0x29`, `0x33`, `0x55`, `0x65` are never
taken, and `Fx07` is a no-op); when it is 7 the delay timer is read into Vx;
when it is `0xA` the key wait is entered, which does not return. -/
theorem f_family_selects_on_y_nibble (env : Env) (c : Chip8)
    (hF : c.IR / 4096 = 0xF) :
    (c.IR / 16 % 16 ≠ 7 → c.IR / 16 % 16 ≠ 0xA → c.DecodeExecute env = .ok c) ∧
    (c.IR / 16 % 16 = 7 →
      c.DecodeExecute env =
        Chip8.setReg { c with delayTimer := (c.delayTimer.GetValue env.ticks).2 }
          (c.IR / 256 % 16) (c.delayTimer.GetValue env.ticks).1) ∧
    (c.IR / 16 % 16 = 0xA → c.DecodeExecute env = .error .keyWait) := by
  have h12 : c.IR >>> 12 = 0xF := by
    simp only [Nat.shiftRight_eq_div_pow, Nat.reducePow]; exact hF
  have hX : opX c.IR = c.IR / 256 % 16 := by
    simp only [opX, u16, Nat.shiftLeft_eq, Nat.shiftRight_eq_div_pow]; omega
  have hY : opY c.IR = c.IR / 16 % 16 := by
    simp only [opY, u16, Nat.shiftLeft_eq, Nat.shiftRight_eq_div_pow]; omega
  refine ⟨?_, ?_, ?_⟩
  · intro h7 hA
    have hnoop := executeF_noop env c (opY_lt _) (by omega) (by omega)
    simp [Chip8.DecodeExecute, h12, hnoop]
  · intro h7
    have hy : opY c.IR = 7 := by omega
    simp [Chip8.DecodeExecute, h12, Chip8.executeF, hy, hX]
  · intro hA
    have hy : opY c.IR = 0xA := by omega
    simp [Chip8.DecodeExecute, h12, Chip8.executeF, hy]

/-- Witness for `f_family_selects_on_y_nibble`: opcode `F033` (y nibble 3) and
opcode `F007` (y nibble 0) leave the machine unchanged. -/
theorem f_family_selects_on_y_nibble_witness :
    (machine (regs16 234 0) 0x300 0xF033).DecodeExecute quietEnv
      = .ok (machine (regs16 234 0) 0x300 0xF033) ∧
    (machine (regs16 234 0) 0x300 0xF007).DecodeExecute quietEnv
      = .ok (machine (regs16 234 0) 0x300 0xF007) :=
  ⟨(f_family_selects_on_y_nibble quietEnv (machine (regs16 234 0) 0x300 0xF033)
      (by decide)).1 (by decide) (by decide),
   (f_family_selects_on_y_nibble quietEnv (machine (regs16 234 0) 0x300 0xF007)
      (by decide)).1 (by decide) (by decide)⟩

/-! ## newInstance -/

/-- The copy loop started at source index `k`: it returns when the destination
range lies inside `mem`, stores `src[i]` at `k + i + off` and touches nothing
else. -/
theorem copyFrom_ok (off : Nat) (src : List Nat) : ∀ (k : Nat) (mem : List Nat),
    k + off + src.length ≤ mem.length →
    ∃ m1, (src.enumFrom k).foldlM (fun m (p : Nat × Nat) => writeAt m (p.1 + off) p.2) mem
        = .ok m1 ∧
      m1.length = mem.length ∧
      (∀ i, i < src.length → m1[k + off + i]? = src[i]?) ∧
      (∀ q, q < k + off ∨ k + off + src.length ≤ q → m1[q]? = mem[q]?) := by
  induction src with
  | nil =>
    intro k mem _
    exact ⟨mem, rfl, rfl, fun i hi => absurd hi (Nat.not_lt_zero i), fun _ _ => rfl⟩
  | cons v rest ih =>
    intro k mem hlen
    simp only [List.length_cons] at hlen
    have hk : k + off < mem.length := by omega
    obtain ⟨m1, hrun, hl, hcopy, hframe⟩ :=
      ih (k + 1) (mem.set (k + off) v) (by simp only [List.length_set]; omega)
    refine ⟨m1, ?_, by simpa only [List.length_set] using hl, ?_, ?_⟩
    · simp only [List.enumFrom_cons, List.foldlM_cons, writeAt, hk, if_true, ok_bind]
      exact hrun
    · intro i hi
      cases i with
      | zero =>
        have := hframe (k + off) (by omega)
        simp only [Nat.add_zero, List.getElem?_cons_zero]
        rw [this]
        exact List.getElem?_set_self hk
      | succ i =>
        have := hcopy i (by simp only [List.length_cons] at hi; omega)
        simp only [List.getElem?_cons_succ]
        rw [← this]
        congr 1
        omega
    · intro q hq
      simp only [List.length_cons] at hq
      rw [hframe q (by omega)]
      exact List.getElem?_set_ne (by omega)

/-- The loop `copyInto` when the destination range lies inside `mem`. -/
theorem copyInto_ok (mem : List Nat) (off : Nat) (src : List Nat)
    (h : off + src.length ≤ mem.length) :
    ∃ m1, copyInto mem off src = .ok m1 ∧ m1.length = mem.length ∧
      (∀ i, i < src.length → m1[off + i]? = src[i]?) ∧
      (∀ q, q < off ∨ off + src.length ≤ q → m1[q]? = mem[q]?) := by
  obtain ⟨m1, hrun, hl, hcopy, hframe⟩ := copyFrom_ok off src 0 mem (by omega)
  refine ⟨m1, hrun, hl, ?_, ?_⟩
  · intro i hi
    have := hcopy i hi
    simpa only [Nat.zero_add] using this
  · intro q hq
    exact hframe q (by omega)

/-- What `newInstance` returns for a ROM of at most 3584 bytes. -/
theorem newInstance_ok (ROM texture : List Nat) (texPitch : Nat)
    (hrom : ROM.length ≤ 3584) :
    ∃ mem, newInstance ROM texture texPitch = .ok
        { stack := { stack := List.replicate 30 0, pointer := -1 },
          memory := mem,
          registers := List.replicate 16 0,
          I := 0, PC := 0x200, IR := 0,
          display := InitDisplay texture texPitch,
          delayTimer := InitTimer,
          soundTimer := InitTimer } ∧
      mem.length = 4096 ∧
      (∀ i, i < 80 → mem[i]? = fonts[i]?) ∧
      (∀ i, i < ROM.length → mem[0x200 + i]? = ROM[i]?) ∧
      (∀ q, 80 ≤ q → q < 4096 → q < 0x200 ∨ 0x200 + ROM.length ≤ q → mem[q]? = some 0) := by
  have hfl : fonts.length = 80 := rfl
  obtain ⟨m1, h1, l1, c1, f1⟩ := copyInto_ok (List.replicate 4096 0) 0 fonts
    (by rw [List.length_replicate, hfl]; omega)
  rw [List.length_replicate] at l1
  obtain ⟨m2, h2, l2, c2, f2⟩ := copyInto_ok m1 0x200 ROM (by omega)
  refine ⟨m2, ?_, by omega, ?_, c2, ?_⟩
  · have hnot : ¬ ROM.length > 3584 := by omega
    simp only [newInstance, hnot, if_false, h1, h2, ok_bind, pure_eq_ok]
  · intro i hi
    rw [f2 i (by omega)]
    have := c1 i (by omega)
    simpa only [Nat.zero_add] using this
  · intro q hq80 hq hout
    rw [f2 q (by omega), f1 q (by omega), List.getElem?_replicate]
    simp [hq]

/-- C22: for every ROM byte sequence of length at most 3584, `newInstance`
returns a state with `PC = 0x200`, `I = 0`, `IR = 0`, sixteen registers all 0,
an empty stack (pointer -1) and a 4096-byte memory in which bytes 0..79 are the
font table, byte `0x200 + i` is `ROM[i]` for every `i < len(ROM)`, and every
other byte is 0. -/
theorem newInstance_loads_fonts_and_rom (ROM texture : List Nat) (texPitch : Nat)
    (hrom : ROM.length ≤ 3584) :
    ∃ c, newInstance ROM texture texPitch = .ok c ∧
      c.PC = 0x200 ∧ c.I = 0 ∧ c.IR = 0 ∧ c.registers = List.replicate 16 0 ∧
      c.stack.pointer = -1 ∧ c.memory.length = 4096 ∧
      (∀ i, i < 80 → c.memory[i]? = fonts[i]?) ∧
      (∀ i, i < ROM.length → c.memory[0x200 + i]? = ROM[i]?) ∧
      (∀ q, 80 ≤ q → q < 4096 → q < 0x200 ∨ 0x200 + ROM.length ≤ q →
        c.memory[q]? = some 0) := by
  obtain ⟨mem, hnew, hl, hfonts, hcopy, hzero⟩ := newInstance_ok ROM texture texPitch hrom
  exact ⟨_, hnew, rfl, rfl, rfl, rfl, rfl, hl, hfonts, hcopy, hzero⟩

/-- Witness for `newInstance_loads_fonts_and_rom`: the four-byte ROM
`00E0, 1200` of the specification and the blank texture. -/
theorem newInstance_loads_fonts_and_rom_witness :
    ∃ c, newInstance [0x00, 0xE0, 0x12, 0x00] blankTexture 256 = .ok c ∧
      c.PC = 0x200 ∧ c.I = 0 ∧ c.IR = 0 ∧ c.registers = List.replicate 16 0 ∧
      c.stack.pointer = -1 ∧ c.memory.length = 4096 ∧
      (∀ i, i < 80 → c.memory[i]? = fonts[i]?) ∧
      (∀ i, i < [0x00, 0xE0, 0x12, 0x00].length →
        c.memory[0x200 + i]? = [0x00, 0xE0, 0x12, 0x00][i]?) ∧
      (∀ q, 80 ≤ q → q < 4096 → q < 0x200 ∨ 0x200 + [0x00, 0xE0, 0x12, 0x00].length ≤ q →
        c.memory[q]? = some 0) :=
  newInstance_loads_fonts_and_rom [0x00, 0xE0, 0x12, 0x00] blankTexture 256 (by decide)

/-! ## Memory is never written -/

theorem keeps_ok {m : List Nat} {c : Chip8} (h : c.memory = m) :
    KeepsMemory m (.ok c) := by
  intro c1 h1
  cases h1
  exact h

theorem keeps_error {m : List Nat} (e : Fault) : KeepsMemory m (.error e) := by
  intro c1 h1
  cases h1

theorem keeps_bind {α : Type} {m : List Nat} (x : Except Fault α)
    (f : α → Except Fault Chip8) (h : ∀ a, x = .ok a → KeepsMemory m (f a)) :
    KeepsMemory m (x >>= f) := by
  intro c1 h1
  cases hx : x with
  | error e => rw [hx] at h1; cases h1
  | ok a => rw [hx] at h1; exact h a hx c1 h1

theorem keeps_bind_state {m : List Nat} (x : Except Fault Chip8)
    (f : Chip8 → Except Fault Chip8) (hx : KeepsMemory m x)
    (h : ∀ a, a.memory = m → KeepsMemory m (f a)) :
    KeepsMemory m (x >>= f) :=
  keeps_bind x f (fun a ha => h a (hx a ha))

theorem keeps_setReg {m : List Nat} {c : Chip8} (x v : Nat) (h : c.memory = m) :
    KeepsMemory m (c.setReg x v) := by
  intro c1 h1
  unfold Chip8.setReg at h1
  cases hw : writeAt c.registers x v with
  | error e => simp [hw] at h1
  | ok r =>
    simp only [hw, ok_bind, pure_eq_ok, Except.ok.injEq] at h1
    rw [← h1]
    exact h

theorem keeps_ite {m : List Nat} (p : Prop) [Decidable p] {a b : Except Fault Chip8}
    (ha : KeepsMemory m a) (hb : KeepsMemory m b) :
    KeepsMemory m (if p then a else b) := by
  split_ifs
  · exact ha
  · exact hb

theorem execute8_keeps (c : Chip8) : KeepsMemory c.memory c.execute8 := by
  unfold Chip8.execute8
  simp only
  repeat' first
    | exact keeps_ok rfl
    | exact keeps_ok (by assumption)
    | exact keeps_error _
    | exact keeps_setReg _ _ rfl
    | exact keeps_setReg _ _ (by assumption)
    | apply keeps_ite
    | refine keeps_bind_state _ _ (keeps_setReg _ _ rfl) (fun a ha => ?_)
    | refine keeps_bind_state _ _ (keeps_ok rfl) (fun a ha => ?_)
    | refine keeps_bind _ _ (fun a ha => ?_)

theorem executeE_keeps (env : Env) (c : Chip8) : KeepsMemory c.memory (c.executeE env) := by
  unfold Chip8.executeE
  simp only
  refine keeps_ite _ (keeps_bind _ _ (fun _ _ => ?_))
    (keeps_ite _ (keeps_bind _ _ (fun _ _ => ?_)) (keeps_ok rfl))
  · split
    · exact keeps_ite _ (keeps_ok rfl) (keeps_ok rfl)
    · exact keeps_ok rfl
  · split
    · exact keeps_ite _ (keeps_ok rfl) (keeps_ok rfl)
    · exact keeps_ok rfl

theorem executeF_keeps (env : Env) (c : Chip8) : KeepsMemory c.memory (c.executeF env) := by
  by_cases h7 : opY c.IR = 0x07
  · have : c.executeF env = Chip8.setReg
        { c with delayTimer := (c.delayTimer.GetValue env.ticks).2 } (opX c.IR)
        (c.delayTimer.GetValue env.ticks).1 := by
      simp [Chip8.executeF, h7]
    rw [this]
    exact keeps_setReg _ _ rfl
  · by_cases hA : opY c.IR = 0x0A
    · have : c.executeF env = .error .keyWait := by
        simp [Chip8.executeF, hA]
      rw [this]
      exact keeps_error _
    · rw [executeF_noop env c (opY_lt _) h7 hA]
      exact keeps_ok rfl

theorem Draw_keeps (c : Chip8) (X Y n : Nat) : KeepsMemory c.memory (c.Draw X Y n) := by
  unfold Chip8.Draw
  refine keeps_bind _ _ (fun _ _ => keeps_bind _ _ (fun _ _ => keeps_bind _ _ (fun _ _ =>
    keeps_bind _ _ (fun _ _ => keeps_bind _ _ (fun _ _ => keeps_bind _ _ (fun st _ => ?_))))))
  obtain ⟨regs, bits⟩ := st
  refine keeps_bind _ _ (fun _ _ => keeps_bind _ _ (fun pr _ => ?_))
  obtain ⟨pc, stk⟩ := pr
  exact keeps_ok rfl

theorem DecodeExecute_keeps (env : Env) (c : Chip8) :
    KeepsMemory c.memory (c.DecodeExecute env) := by
  unfold Chip8.DecodeExecute
  simp only
  refine keeps_ite _ ?_ ?_
  · refine keeps_ite _ (keeps_bind _ _ (fun _ _ => keeps_ok rfl))
      (keeps_ite _ (keeps_bind _ _ (fun pr _ => ?_)) (keeps_ok rfl))
    obtain ⟨pc, stk⟩ := pr
    exact keeps_ok rfl
  refine keeps_ite _ (keeps_ok rfl) ?_
  refine keeps_ite _ (keeps_bind _ _ (fun _ _ => keeps_ok rfl)) ?_
  refine keeps_ite _
    (keeps_bind _ _ (fun _ _ => keeps_ite _ (keeps_ok rfl) (keeps_ok rfl))) ?_
  refine keeps_ite _
    (keeps_bind _ _ (fun _ _ => keeps_ite _ (keeps_ok rfl) (keeps_ok rfl))) ?_
  refine keeps_ite _
    (keeps_bind _ _ (fun _ _ => keeps_bind _ _ (fun _ _ =>
      keeps_ite _ (keeps_ok rfl) (keeps_ok rfl)))) ?_
  refine keeps_ite _ (keeps_setReg _ _ rfl) ?_
  refine keeps_ite _ (keeps_bind _ _ (fun _ _ => keeps_setReg _ _ rfl)) ?_
  refine keeps_ite _ (execute8_keeps c) ?_
  refine keeps_ite _
    (keeps_bind _ _ (fun _ _ => keeps_bind _ _ (fun _ _ =>
      keeps_ite _ (keeps_ok rfl) (keeps_ok rfl)))) ?_
  refine keeps_ite _ (keeps_ok rfl) ?_
  refine keeps_ite _ (keeps_bind _ _ (fun _ _ => keeps_ok rfl)) ?_
  refine keeps_ite _ (keeps_setReg _ _ rfl) ?_
  refine keeps_ite _ (Draw_keeps c _ _ _) ?_
  refine keeps_ite _ (executeE_keeps env c) ?_
  exact keeps_ite _ (executeF_keeps env c) (keeps_ok rfl)

theorem Fetch_keeps (c : Chip8) : KeepsMemory c.memory c.Fetch := by
  unfold Chip8.Fetch
  exact keeps_bind _ _ (fun _ _ => keeps_bind _ _ (fun _ _ => keeps_ok rfl))

theorem step_keeps (env : Env) (c : Chip8) : KeepsMemory c.memory (c.step env) := by
  unfold Chip8.step
  exact keeps_bind_state _ _ (Fetch_keeps c) (fun a ha => ha ▸ DecodeExecute_keeps env a)

theorem run_keeps (envs : List Env) : ∀ c : Chip8, KeepsMemory c.memory (c.run envs) := by
  induction envs with
  | nil => intro c; exact keeps_ok rfl
  | cons env rest ih =>
    intro c
    unfold Chip8.run
    rw [List.foldlM_cons]
    exact keeps_bind_state _ _ (step_keeps env c) (fun a ha => ha ▸ ih a)

/-- C23: for every state and every opcode whose `Fetch` and `DecodeExecute`
return without fault, the font region `memory[0x000..0x04F]` after the step
equals the font region before it; and every state reached from a state that
`newInstance` returned, by any number of iterations of the loop of `Cycle`,
still holds the font table there. (No arm of `DecodeExecute` that can be
taken stores into memory at all.) -/
theorem font_region_is_immutable (env : Env) (c c1 c2 : Chip8)
    (hf : c.Fetch = .ok c1) (hd : c1.DecodeExecute env = .ok c2) :
    (∀ i, i < 80 → c2.memory[i]? = c.memory[i]?) ∧
    (∀ (ROM texture : List Nat) (texPitch : Nat) (c0 cN : Chip8) (envs : List Env),
      newInstance ROM texture texPitch = .ok c0 → c0.run envs = .ok cN →
      ∀ i, i < 80 → cN.memory[i]? = fonts[i]?) := by
  constructor
  · intro i _
    rw [DecodeExecute_keeps env c1 c2 hd, Fetch_keeps c c1 hf]
  · intro ROM texture texPitch c0 cN envs hnew hrun i hi
    rw [run_keeps envs c0 cN hrun]
    by_cases hrom : ROM.length ≤ 3584
    · obtain ⟨mem, hok, _, hfonts, _, _⟩ := newInstance_ok ROM texture texPitch hrom
      rw [hok] at hnew
      simp only [Except.ok.injEq] at hnew
      rw [← hnew]
      exact hfonts i hi
    · have hgt : ROM.length > 3584 := by omega
      simp [newInstance, hgt] at hnew

set_option maxRecDepth 100000 in
/-- Witness for `font_region_is_immutable`: the fetch at `PC = 0` (which reads
the opcode `F090` out of the font table) and its execution both return. -/
theorem font_region_is_immutable_witness :
    (∀ i, i < 80 →
      (returned (Chip8.DecodeExecute quietEnv
          (returned (machineAtPC 0).Fetch (machineAtPC 0)))
        (returned (machineAtPC 0).Fetch (machineAtPC 0))).memory[i]?
        = (machineAtPC 0).memory[i]?) ∧
    (∀ (ROM texture : List Nat) (texPitch : Nat) (c0 cN : Chip8) (envs : List Env),
      newInstance ROM texture texPitch = .ok c0 → c0.run envs = .ok cN →
      ∀ i, i < 80 → cN.memory[i]? = fonts[i]?) :=
  font_region_is_immutable quietEnv (machineAtPC 0)
    (returned (machineAtPC 0).Fetch (machineAtPC 0))
    (returned (Chip8.DecodeExecute quietEnv
        (returned (machineAtPC 0).Fetch (machineAtPC 0)))
      (returned (machineAtPC 0).Fetch (machineAtPC 0)))
    (eq_ok_returned _ _ (by decide!)) (eq_ok_returned _ _ (by decide!))

/-! ## GetPixels returns the parity of each row -/

theorem onCount_succ (Pixels : List Nat) (pitch Vy Vx i j : Nat) :
    onCount Pixels pitch Vy Vx i (j + 1) = onCount Pixels pitch Vy Vx i j +
      (if Pixels[readPos pitch Vy Vx i j]? = some 0x0 then 1 else 0) := by
  simp only [onCount, List.range_succ, List.filter_append, List.length_append,
    List.filter_cons, List.filter_nil]
  split_ifs <;> simp_all

theorem parity_step (j p : Nat) (hj : j < 8) (hp : p < 2) (h0 : j = 0 → p = 0) :
    u8 ((p * 2 ^ j / 2) <<< 1) = p * 2 ^ (j + 1) / 2 ∧
    u8 ((p * 2 ^ j / 2) <<< 1) ^^^ u8 (1 <<< j) = ((p + 1) % 2) * 2 ^ (j + 1) / 2 := by
  interval_cases j <;> interval_cases p <;> first | decide | exact absurd (h0 rfl) (by decide)

/-- The inner loop of `GetPixels` on a row whose eight sampled bytes are each
`0x00` or `0xFF`: it returns `0x80` when an odd number of them are `0x00` and
`0x00` otherwise. -/
theorem getPixelsRow_parity (Pixels : List Nat) (pitch Vy Vx i : Nat)
    (hs : ∀ j, j < 8 → Pixels[readPos pitch Vy Vx i j]? = some 0x00 ∨
      Pixels[readPos pitch Vy Vx i j]? = some 0xFF) :
    getPixelsRow Pixels pitch Vy Vx i =
      .ok (if onCount Pixels pitch Vy Vx i 8 % 2 = 1 then 0x80 else 0x00) := by
  obtain ⟨t, hrun, ht⟩ := foldlM_range_total (getPixelsStep Pixels pitch Vy Vx i)
    (fun j t => t = (onCount Pixels pitch Vy Vx i j % 2) * 2 ^ j / 2)
    8 0 (by simp [onCount])
    (by
      intro j hj t ht
      have hp : onCount Pixels pitch Vy Vx i j % 2 < 2 := Nat.mod_lt _ (by decide)
      have hz : j = 0 → onCount Pixels pitch Vy Vx i j % 2 = 0 := by
        intro hj0
        subst hj0
        simp [onCount]
      obtain ⟨hoff, hon⟩ := parity_step j _ hj hp hz
      subst ht
      rcases hs j hj with h0 | hF
      · refine ⟨u8 ((onCount Pixels pitch Vy Vx i j % 2 * 2 ^ j / 2) <<< 1) ^^^ u8 (1 <<< j),
          by simp [getPixelsStep, readAt, h0], ?_⟩
        show _ = (onCount Pixels pitch Vy Vx i (j + 1) % 2) * 2 ^ (j + 1) / 2
        rw [hon, onCount_succ, if_pos h0]
        congr 2
        omega
      · refine ⟨u8 ((onCount Pixels pitch Vy Vx i j % 2 * 2 ^ j / 2) <<< 1),
          by simp [getPixelsStep, readAt, hF], ?_⟩
        show _ = (onCount Pixels pitch Vy Vx i (j + 1) % 2) * 2 ^ (j + 1) / 2
        rw [hoff, onCount_succ, hF]
        simp)
  unfold getPixelsRow
  rw [hrun, ht]
  have hp : onCount Pixels pitch Vy Vx i 8 % 2 < 2 := Nat.mod_lt _ (by decide)
  congr 1
  split_ifs <;> omega

/-- C25: for every locked pixel buffer and every `(Vx, Vy, n)` such that each
byte `GetPixels` samples is in range and is `0x00` (on) or `0xFF` (off),
`GetPixels` returns, only `bits`, `bitPosX` and `bitPosY` of the display
change, `bits` has `n` entries, and entry `i` is `0x80` when an odd number of
the 8 pixels sampled for row `i` are on and `0x00` otherwise: no bit below
bit 7 is ever set. -/
theorem GetPixels_returns_row_parity (d : Display) (Vy Vx n : Nat)
    (hs : ∀ i, i < n → ∀ j, j < 8 →
      d.Pixels[readPos d.pitch Vy Vx i j]? = some 0x00 ∨
      d.Pixels[readPos d.pitch Vy Vx i j]? = some 0xFF) :
    ∃ bits, d.GetPixels Vy Vx n = .ok { d with bits := bits, bitPosX := Vx, bitPosY := Vy } ∧
      bits.length = n ∧
      ∀ i, i < n → bits[i]? =
        some (if onCount d.Pixels d.pitch Vy Vx i 8 % 2 = 1 then 0x80 else 0x00) := by
  obtain ⟨bits, hrun, hlen, hrows⟩ := foldlM_range_total
    (fun bits i => do
      let toBits ← getPixelsRow d.Pixels d.pitch Vy Vx i
      writeAt bits i toBits)
    (fun i bs => bs.length = n ∧ ∀ r, r < i → bs[r]? =
      some (if onCount d.Pixels d.pitch Vy Vx r 8 % 2 = 1 then 0x80 else 0x00))
    n (List.replicate n 0)
    ⟨List.length_replicate _ _, fun r hr => absurd hr (Nat.not_lt_zero r)⟩
    (by
      intro i hi bs ⟨hl, hdone⟩
      have hin : i < bs.length := by omega
      refine ⟨bs.set i (if onCount d.Pixels d.pitch Vy Vx i 8 % 2 = 1 then 0x80 else 0x00),
        ?_, by simp only [List.length_set]; exact hl, ?_⟩
      · simp only [getPixelsRow_parity _ _ _ _ _ (hs i hi), ok_bind, writeAt, hin, if_true]
      · intro r hr
        by_cases hri : r = i
        · subst hri
          exact List.getElem?_set_self hin
        · rw [List.getElem?_set_ne (by omega)]
          exact hdone r (by omega))
  refine ⟨bits, ?_, hlen, hrows⟩
  simp only [Display.GetPixels, hrun, ok_bind, pure_eq_ok]

set_option maxRecDepth 100000 in
/-- Witness for `GetPixels_returns_row_parity`: two rows sampled at
`(Vx, Vy) = (0, 1)` from the locked texture in which only pixel 0 of row 0 is on. -/
theorem GetPixels_returns_row_parity_witness :
    ∃ bits, sampleDisplay.GetPixels 1 0 2
        = .ok { sampleDisplay with bits := bits, bitPosX := 0, bitPosY := 1 } ∧
      bits.length = 2 ∧
      ∀ i, i < 2 → bits[i]? =
        some (if onCount sampleDisplay.Pixels sampleDisplay.pitch 1 0 i 8 % 2 = 1
          then 0x80 else 0x00) :=
  GetPixels_returns_row_parity sampleDisplay 1 0 2 (by decide!)

end Chip8VM
